import Mathlib

/-!
Verification of the podcast episode timeline and reconciliation engine
(`src/classes/file_analyzer.py`, `src/classes/file_organizer.py`).

The Python source is shallowly embedded: file names and canonical dates are
`String`s, the per-podcast analyzer state is an explicit record, Python dicts
keyed by strings become insertion-ordered association lists, and the external
date parsers (strptime, dateutil, RFC-822 mailbox parsing) are parameters.
Python exceptions that escape a function are modelled with `Except`.
-/

/-! ## Character and string helpers (Python semantics) -/

/-- Python string whitespace for `str.strip` and `int()` (ASCII part). -/
def pyIsSpace (c : Char) : Bool :=
  c = ' ' || c = '\t' || c = '\n' || c = '\x0d' || c = '\x0b' || c = '\x0c'

/-- Word character for the regex `\b` boundary (ASCII `\w`). -/
def isWordChar (c : Char) : Bool :=
  c.isAlphanum || c = '_'

/-- Lowercase a character list, as Python `str.lower` on ASCII. -/
def lowerChars (cs : List Char) : List Char :=
  cs.map Char.toLower

/-- `needle.isPrefixOf hay` on raw character lists. -/
def chPrefix : List Char → List Char → Bool
  | [], _ => true
  | _ :: _, [] => false
  | a :: as, b :: bs => a = b && chPrefix as bs

/-- `needle in hay` substring test on character lists. -/
def containsSub (needle : List Char) : List Char → Bool
  | [] => chPrefix needle []
  | c :: cs => chPrefix needle (c :: cs) || containsSub needle cs

/-- Case-insensitive substring search, as `re.search(re.escape(p), s, re.IGNORECASE)`. -/
def substrCI (needle hay : String) : Bool :=
  containsSub (lowerChars needle.data) (lowerChars hay.data)

/-- Python `str.lower()` (ASCII). -/
def pyLower (s : String) : String :=
  ⟨lowerChars s.data⟩

/-- Python string comparison, lexicographic on code points, as a Boolean. -/
def chLtB : List Char → List Char → Bool
  | [], [] => false
  | [], _ :: _ => true
  | _ :: _, [] => false
  | a :: as, b :: bs =>
      if a.toNat < b.toNat then true
      else if b.toNat < a.toNat then false
      else chLtB as bs

/-- Python `s1 < s2` on strings. -/
def strLtB (a b : String) : Bool :=
  chLtB a.data b.data

/-- Python `str.strip()` on a character list. -/
def stripChars (cs : List Char) : List Char :=
  ((cs.dropWhile pyIsSpace).reverse.dropWhile pyIsSpace).reverse

/-- Python `str.strip()`. -/
def pyStrip (s : String) : String :=
  ⟨stripChars s.data⟩

/-- Numeric value of a decimal digit character. -/
def digitVal (c : Char) : Nat := c.toNat - 48

/-- Decimal value of a digit run, as `int` on a plain digit string. -/
def digitsToNat (cs : List Char) : Nat :=
  cs.foldl (fun a c => a * 10 + digitVal c) 0

/-- Fuelled digit expansion of a natural number, most significant first. -/
def natCharsF : Nat → Nat → List Char
  | 0, n => [Char.ofNat (48 + n % 10)]
  | fuel + 1, n =>
      if n < 10 then [Char.ofNat (48 + n)]
      else natCharsF fuel (n / 10) ++ [Char.ofNat (48 + n % 10)]

/-- Decimal digits of `n`, as Python `str` of a nonnegative int. -/
def natChars (n : Nat) : List Char :=
  natCharsF n n

/-- Number of decimal digits of `n`, as Python `len(str(n))`. -/
def numDigits (n : Nat) : Nat :=
  (natChars n).length

/-- `str(n).zfill(width)` as a character list. -/
def zfillChars (width : Nat) (n : Nat) : List Char :=
  List.replicate (width - (natChars n).length) '0' ++ natChars n

/-- `str(n).zfill(width)`. -/
def zfillNat (width : Nat) (n : Nat) : String :=
  ⟨zfillChars width n⟩

/-- Digit-run parser for Python `int`: digits with single underscores
allowed between digits. -/
def pyDigitsGo (acc : Nat) : List Char → Option Nat
  | [] => some acc
  | '_' :: c :: rest =>
      if c.isDigit then pyDigitsGo (acc * 10 + digitVal c) rest else none
  | '_' :: [] => none
  | c :: rest =>
      if c.isDigit then pyDigitsGo (acc * 10 + digitVal c) rest else none

/-- Digit-run parser entry: the run must start with a digit. -/
def pyDigits : List Char → Option Nat
  | [] => none
  | c :: rest => if c.isDigit then pyDigitsGo (digitVal c) rest else none

/-- Python `int(s)`: optional surrounding whitespace, optional sign,
then digits with optional underscores. -/
def pyInt (s : String) : Option Int :=
  match stripChars s.data with
  | '+' :: rest => (pyDigits rest).map Int.ofNat
  | '-' :: rest => (pyDigits rest).map (fun n => -(n : Int))
  | rest => (pyDigits rest).map Int.ofNat

/-- `int(date_str[:4])` as used by `get_date_range`. -/
def pyInt4 (s : String) : Option Int :=
  pyInt (s.take 4)

/-! ## Episode-number regex `(Ep\.?|Episode|E|Part)(\s*)(\d+)` (IGNORECASE)

A match attempt at one position tries the alternative prefixes in the
priority order of the regex engine, then greedily consumes whitespace and
then a nonempty digit run.  The character classes of the three parts are
disjoint, so the engine never backtracks across them. -/

/-- Strip a candidate prefix case-insensitively, returning the consumed
original characters and the remainder. -/
def stripCandCI : List Char → List Char → Option (List Char × List Char)
  | [], cs => some ([], cs)
  | _ :: _, [] => none
  | p :: ps, c :: cs =>
      if p.toLower = c.toLower then
        (stripCandCI ps cs).map (fun r => (c :: r.1, r.2))
      else none

/-- One alternative of the episode pattern at the head of the input:
prefix, then `\s*`, then `\d+`.  Returns the three groups and the rest. -/
def tryCand (cand : List Char) (cs : List Char) :
    Option (List Char × List Char × List Char × List Char) :=
  match stripCandCI cand cs with
  | none => none
  | some (pc, r1) =>
      let sp := r1.takeWhile pyIsSpace
      let r2 := r1.dropWhile pyIsSpace
      let dg := r2.takeWhile Char.isDigit
      let r3 := r2.dropWhile Char.isDigit
      if dg.isEmpty then none else some (pc, sp, dg, r3)

/-- Try a list of alternatives in priority order at the head of the input. -/
def tryCands (cands : List (List Char)) (cs : List Char) :
    Option (List Char × List Char × List Char × List Char) :=
  match cands with
  | [] => none
  | cand :: rest =>
      match tryCand cand cs with
      | some r => some r
      | none => tryCands rest cs

/-- Alternatives of the padding pattern `(Ep\.?|Episode|E|Part)`, in the
order the regex engine tries them (`\.?` is greedy). -/
def padCands : List (List Char) :=
  [['E', 'p', '.'], ['E', 'p'], ['E', 'p', 'i', 's', 'o', 'd', 'e'], ['E'],
   ['P', 'a', 'r', 't']]

/-- Alternatives of the grouping pattern `(Ep\.?|Episode)`. -/
def epCands : List (List Char) :=
  [['E', 'p', '.'], ['E', 'p'], ['E', 'p', 'i', 's', 'o', 'd', 'e']]

/-- Match of the padding pattern at the head of the input. -/
def matchAtPad (cs : List Char) :
    Option (List Char × List Char × List Char × List Char) :=
  tryCands padCands cs

/-- `pattern.search` for the padding pattern: the episode number of the
leftmost match, as `int(match.group(3))`. -/
def firstEpNum : List Char → Option Nat
  | [] => none
  | c :: rest =>
      match matchAtPad (c :: rest) with
      | some (_, _, dg, _) => some (digitsToNat dg)
      | none => firstEpNum rest

/-- `re.search` existence test for the grouping pattern `(Ep\.?|Episode)\s*(\d+)`. -/
def hasEpNum9 : List Char → Bool
  | [] => false
  | c :: rest =>
      match tryCands epCands (c :: rest) with
      | some _ => true
      | none => hasEpNum9 rest

/-- `pattern.sub` for the padding pattern, fuelled recursion: every match is
rewritten with its number zero-padded to `D` digits, scanning left to right
and never rescanning replaced text. -/
def subDigitsF (D : Nat) : Nat → List Char → List Char
  | 0, cs => cs
  | _ + 1, [] => []
  | fuel + 1, c :: rest =>
      match matchAtPad (c :: rest) with
      | some (pc, sp, dg, r) =>
          pc ++ sp ++ zfillChars D (digitsToNat dg) ++ subDigitsF D fuel r
      | none => c :: subDigitsF D fuel rest

/-- `pattern.sub(pad_episode_number, name)` with pad width `D`. -/
def subDigits (D : Nat) (cs : List Char) : List Char :=
  subDigitsF D cs.length cs

/-- Maximum of a list of naturals, as `max(...)` over a nonempty batch. -/
def maxNat (l : List Nat) : Nat :=
  l.foldl Nat.max 0

/-- `FileOrganizer.pad_episode_numbers`, acting on the list of file names:
collect the first episode number of every matching name, compute the pad
width from the largest, and rewrite every matching name. -/
def padEpisodeNumbers (names : List String) : List String :=
  let nums := names.filterMap (fun n => firstEpNum n.data)
  if nums.isEmpty then names
  else
    let numDigitsPad := numDigits (maxNat nums)
    names.map (fun n =>
      if (firstEpNum n.data).isSome then ⟨subDigits numDigitsPad n.data⟩ else n)

/-! ## The date regex `\b(\d{4}-\d{2}-\d{2})\b` and related rewriting -/

/-- Exactly `n` digits at the head of the input. -/
def takeDigitsN : Nat → List Char → Option (List Char × List Char)
  | 0, cs => some ([], cs)
  | _ + 1, [] => none
  | n + 1, c :: cs =>
      if c.isDigit then (takeDigitsN n cs).map (fun r => (c :: r.1, r.2))
      else none

/-- `\d{4}-\d{2}-\d{2}\b` anchored at the head: the matched characters. -/
def dateShapeAt (cs : List Char) : Option (List Char) :=
  match takeDigitsN 4 cs with
  | some (y, '-' :: r1) =>
      match takeDigitsN 2 r1 with
      | some (m, '-' :: r2) =>
          match takeDigitsN 2 r2 with
          | some (d, r3) =>
              match r3 with
              | [] => some (y ++ '-' :: m ++ '-' :: d)
              | c :: _ =>
                  if isWordChar c then none else some (y ++ '-' :: m ++ '-' :: d)
          | none => none
      | _ => none
  | _ => none

/-- `re.search` for the date pattern: `prevOk` says a `\b` holds before the
current position. -/
def findDateAux (prevOk : Bool) : List Char → Option (List Char)
  | [] => none
  | c :: cs =>
      if prevOk then
        match dateShapeAt (c :: cs) with
        | some m => some m
        | none => findDateAux (!isWordChar c) cs
      else findDateAux (!isWordChar c) cs

/-- First embedded `YYYY-MM-DD` substring of a file name, as
`date_pattern.search(name)`. -/
def extractDate (s : String) : Option String :=
  (findDateAux true s.data).map (fun l => ⟨l⟩)

/-- `re.sub(rf'\b{date}\b ', '', name)`, fuelled recursion: remove every
occurrence of the date followed by one space, at word boundaries, scanning
left to right. -/
def stripDateF (date : List Char) : Nat → Bool → List Char → List Char
  | 0, _, cs => cs
  | _ + 1, _, [] => []
  | fuel + 1, prevOk, c :: cs =>
      if prevOk && chPrefix (date ++ [' ']) (c :: cs) then
        stripDateF date fuel true ((c :: cs).drop (date.length + 1))
      else c :: stripDateF date fuel (!isWordChar c) cs

/-- Date-removal step of `assign_episode_numbers_from_rss`. -/
def stripDateOcc (date : String) (name : String) : String :=
  ⟨stripDateF date.data name.data.length true name.data⟩

/-- Split point of `re.split(r' - (?=[^-]*$)', s)`: the unique occurrence of
`" - "` whose remainder contains no hyphen, if any. -/
def splitTLAux : List Char → Option (List Char × List Char)
  | [] => none
  | c :: cs =>
      if chPrefix [' ', '-', ' '] (c :: cs) && !((c :: cs).drop 3).contains '-' then
        some ([], (c :: cs).drop 3)
      else (splitTLAux cs).map (fun r => (c :: r.1, r.2))

/-- `re.split(r' - (?=[^-]*$)', s)`. -/
def splitTitleLast (s : String) : List String :=
  match splitTLAux s.data with
  | some (a, b) => [⟨a⟩, ⟨b⟩]
  | none => [s]

/-- Modelled from the spec: `normalize_string` lives in `utils.py`, which is
not part of the sources; the spec specifies it as case-folding and
punctuation-insensitive normalization, so we lowercase and keep only
alphanumeric characters and spaces. -/
def normalizeString (s : String) : List Char :=
  (lowerChars s.data).filter (fun c => c.isAlphanum || c = ' ')

/-! ## Data model -/

/-- The slice of a parsed `datetime` object that the source uses: its year
and its `strftime` rendering as a canonical `YYYY-MM-DD` string. -/
structure DateObj where
  year : Int
  ymd : String
deriving DecidableEq, Repr

/-- The external date-parsing collaborators of `process_metadata`:
`datetime.strptime` (format, raw), `dateutil.parser.parse`, and
`email.utils.parsedate_to_datetime`.  Raised exceptions are `none`. -/
structure DateParsers where
  strptime : String → String → Option DateObj
  lenient : String → Option DateObj
  rfc822 : String → Option DateObj

/-- Metadata record produced by `analyze_audio_file` for one audio file. -/
structure AudioMeta where
  recordingDate : Option String
  bitrateKbps : Nat
  bitrateModeVBR : Bool
deriving DecidableEq, Repr

/-- Container kind recognized by `mutagen` for a file. -/
inductive AudioKind where
  | mp3
  | mp4
  | other
deriving DecidableEq, Repr

/-- The external tag environment of one file, as read by `mutagen`:
everything `analyze_audio_file` inspects.  Exceptions raised while reading
tags become the corresponding error flags. -/
structure TagEnv where
  kind : AudioKind
  hasInfo : Bool
  tdrc : Option String
  tagsReadError : Bool
  easyError : Bool
  easyDate : Option String
  easyOriginalDate : Option String
  easyYear : Option String
  txxxReleasedate : Option String
  bitrateKbps : Nat
  vbr : Bool
deriving DecidableEq, Repr

/-- One file of a scan: its name, suffix, tag environment, and the result
of reading its modification time (none when `stat` fails). -/
structure FileInput where
  name : String
  suffix : String
  tags : TagEnv
  mtime : Option DateObj
deriving DecidableEq, Repr

/-- The mutable state of a `FileAnalyzer`: the three path buckets (dicts of
string key to file list, in insertion order), the derived bounds, and the
preserved prior-run mapping. -/
structure AnalyzerState where
  file_dates : List (String × List String)
  bitrates : List (String × List String)
  file_formats : List (String × List String)
  earliest_year : Option Int
  first_episode_date : Option String
  real_first_episode_date : Option String
  last_episode_date : Option String
  real_last_episode_date : Option String
  original_files : Option (List (String × List String))
  all_vbr : Bool
deriving DecidableEq, Repr

/-- The freshly constructed analyzer state of `FileAnalyzer.__init__`. -/
def initState : AnalyzerState :=
  { file_dates := [], bitrates := [], file_formats := []
    earliest_year := none, first_episode_date := none
    real_first_episode_date := none, last_episode_date := none
    real_last_episode_date := none, original_files := none, all_vbr := true }

/-- `dict[k].append(v)` on a `defaultdict(list)` in insertion order. -/
def dictAppend (k : String) (v : String) :
    List (String × List String) → List (String × List String)
  | [] => [(k, [v])]
  | (k', vs) :: rest =>
      if k' = k then (k', vs ++ [v]) :: rest else (k', vs) :: dictAppend k v rest

/-! ## `FileAnalyzer.update_file_path` and `remove_file` -/

/-- Bucket update of `update_file_path`: remove the first occurrence of the
old path and append the new path, when the old path is present. -/
def bucketUpdate (old new : String) (l : List String) : List String :=
  if old ∈ l then l.erase old ++ [new] else l

/-- `FileAnalyzer.update_file_path(old, new)`. -/
def updateFilePath (s : AnalyzerState) (old new : String) : AnalyzerState :=
  { s with
    bitrates := s.bitrates.map (fun p => (p.1, bucketUpdate old new p.2))
    file_formats := s.file_formats.map (fun p => (p.1, bucketUpdate old new p.2))
    file_dates := s.file_dates.map (fun p => (p.1, bucketUpdate old new p.2)) }

/-! ## `FileAnalyzer.get_date_range` -/

/-- The five bound fields recomputed by `get_date_range`. -/
structure Bounds where
  earliest : Option Int
  first : Option String
  rfirst : Option String
  last : Option String
  rlast : Option String
deriving DecidableEq, Repr

/-- One current-scan key of the `get_date_range` main loop.  A key equal to
"Unknown" is skipped; a key whose first four characters do not parse as an
int is skipped entirely (the `continue` after the `ValueError`); otherwise
the earliest year and the four date bounds are updated, the observed and
real bounds together.  The year comparison keeps the Python truthiness
guard `year and year < self.earliest_year`. -/
def currentStep (b : Bounds) (k : String) : Bounds :=
  if k = "Unknown" then b
  else
    match pyInt4 k with
    | none => b
    | some y =>
        let e :=
          match b.earliest with
          | none => some y
          | some e0 => if y ≠ 0 ∧ y < e0 then some y else some e0
        let fp :=
          match b.first with
          | none => (some k, some k)
          | some f0 => if strLtB k f0 then (some k, some k) else (some f0, b.rfirst)
        let lp :=
          match b.last with
          | none => (some k, some k)
          | some l0 => if strLtB l0 k then (some k, some k) else (some l0, b.rlast)
        { earliest := e, first := fp.1, rfirst := fp.2, last := lp.1, rlast := lp.2 }

/-- The current-scan loop of `get_date_range`. -/
def currentPass (ks : List String) (b : Bounds) : Bounds :=
  ks.foldl currentStep b

/-- One prior-run key of the `get_date_range` second loop: only the real
bounds are extended, with the truthiness guard `date_str and date_str < ...`. -/
def originalStep (b : Bounds) (k : String) : Bounds :=
  if k = "Unknown" then b
  else
    { b with
      rfirst :=
        match b.rfirst with
        | none => some k
        | some f0 => if k ≠ "" ∧ strLtB k f0 = true then some k else some f0
      rlast :=
        match b.rlast with
        | none => some k
        | some l0 => if k ≠ "" ∧ strLtB l0 k = true then some k else some l0 }

/-- The prior-run loop of `get_date_range`. -/
def originalPass (ks : List String) (b : Bounds) : Bounds :=
  ks.foldl originalStep b

/-- Python truthiness of the optional prior-run dict. -/
def pyTruthyDict : Option (List (String × List String)) → Bool
  | some (_ :: _) => true
  | _ => false

/-- `FileAnalyzer.get_date_range`: prune empty buckets, reset the bounds,
fold the current-scan keys, then extend the real bounds over the preserved
prior-run keys when that mapping is truthy. -/
def getDateRange (s : AnalyzerState) : AnalyzerState :=
  let fd := s.file_dates.filter (fun p => !p.2.isEmpty)
  let b1 := currentPass (fd.map Prod.fst) ⟨none, none, none, none, none⟩
  let b2 :=
    if pyTruthyDict s.original_files then
      originalPass ((s.original_files.getD []).map Prod.fst) b1
    else b1
  { s with
    file_dates := fd
    earliest_year := b2.earliest
    first_episode_date := b2.first
    real_first_episode_date := b2.rfirst
    last_episode_date := b2.last
    real_last_episode_date := b2.rlast }

/-! ## `FileAnalyzer.process_metadata` -/

/-- The fixed strict format list of `process_metadata`. -/
def dateFormats : List String :=
  ["%Y-%m-%d", "%Y", "%a, %d %b %Y %H:%M:%S %z", "%a, %d %b %Y %H:%M:%S %Z",
   "%d %b %Y %H:%M:%S %z", "%d %b %Y %H:%M:%S %Z"]

/-- First parser success over a list of attempts. -/
def firstSome : List (Option DateObj) → Option DateObj
  | [] => none
  | some d :: _ => some d
  | none :: rest => firstSome rest

/-- The strict-format loop: try `datetime.strptime` with each fixed format,
first success wins. -/
def strictParse (P : DateParsers) (raw : String) : Option DateObj :=
  firstSome (dateFormats.map (fun fmt => P.strptime fmt raw))

/-- The raw-token branch of `process_metadata`: strict formats, then the
lenient parser, then the RFC-822 parser, else "Unknown". -/
def rawDateKey (P : DateParsers) (raw : String) : String :=
  match strictParse P raw with
  | some d => d.ymd
  | none =>
      match P.lenient raw with
      | some d => d.ymd
      | none =>
          match P.rfc822 raw with
          | some d => d.ymd
          | none => "Unknown"

/-- The no-token branch of `process_metadata`: search the file name for an
embedded date (validated with `strptime`), else fall back to the file
modification time, else "Unknown". -/
def fallbackDateKey (P : DateParsers) (fname : String) (mtime : Option DateObj) :
    String :=
  match extractDate fname with
  | some ds => if (P.strptime "%Y-%m-%d" ds).isSome then ds else "Unknown"
  | none =>
      match mtime with
      | some d => d.ymd
      | none => "Unknown"

/-- The canonical date key computed by `process_metadata` for one file:
the raw-token branch when the token is truthy, the fallback branch
otherwise. -/
def dateKey (P : DateParsers) (recording : Option String) (fname : String)
    (mtime : Option DateObj) : String :=
  match recording with
  | some raw => if raw ≠ "" then rawDateKey P raw else fallbackDateKey P fname mtime
  | none => fallbackDateKey P fname mtime

/-- The bitrate bucket label of `process_metadata`. -/
def bitrateLabel (meta : AudioMeta) : String :=
  if meta.bitrateModeVBR then "VBR"
  else if meta.bitrateKbps ≠ 0 then ⟨natChars meta.bitrateKbps⟩ ++ " kbps"
  else "Unknown"

/-- The format bucket label: the lowercased suffix without its dot. -/
def formatLabel (suffix : String) : String :=
  ⟨(lowerChars suffix.data).drop 1⟩

/-- `FileAnalyzer.process_metadata`: append the file to its date, bitrate
and format buckets. -/
def processMetadata (P : DateParsers) (meta : AudioMeta) (f : FileInput)
    (s : AnalyzerState) : AnalyzerState :=
  let ds := dateKey P meta.recordingDate f.name f.mtime
  { s with
    file_dates := dictAppend ds f.name s.file_dates
    bitrates := dictAppend (bitrateLabel meta) f.name s.bitrates
    file_formats := dictAppend (formatLabel f.suffix) f.name s.file_formats }

/-! ## `FileAnalyzer.analyze_audio_file` and `analyze_files` -/

/-- Truthy chain over optional tag strings: the first present nonempty
value, as the successive `if not date` fallbacks. -/
def truthyChain : List (Option String) → Option String
  | [] => none
  | some v :: rest => if v ≠ "" then some v else truthyChain rest
  | none :: rest => truthyChain rest

/-- `FileAnalyzer.mp3_date_extract_alternatives`: EasyID3 `date`, then
`originaldate`, then `year`, then the TXXX `releasedate` custom tag. -/
def mp3DateAlternatives (t : TagEnv) : Option String :=
  if t.easyError then none
  else
    match truthyChain [t.easyDate, t.easyOriginalDate, t.easyYear] with
    | some d => some d
    | none => t.txxxReleasedate.map pyStrip

/-- `FileAnalyzer.analyze_audio_file`: `none` models the unsupported or
corrupt file cases that return `None`. -/
def analyzeAudioFile (t : TagEnv) : Option AudioMeta :=
  if !t.hasInfo then none
  else
    match t.kind with
    | AudioKind.mp3 =>
        let rd :=
          if t.tagsReadError then none
          else
            match t.tdrc with
            | some v => if pyStrip v ≠ "" then some (pyStrip v) else mp3DateAlternatives t
            | none => mp3DateAlternatives t
        some { recordingDate := rd, bitrateKbps := t.bitrateKbps
               bitrateModeVBR := t.vbr }
    | AudioKind.mp4 =>
        some { recordingDate := t.tdrc, bitrateKbps := t.bitrateKbps
               bitrateModeVBR := t.bitrateKbps = 0 }
    | AudioKind.other => none

/-- Sort the date mapping by key, as `dict(sorted(self.file_dates.items()))`. -/
def sortByKey (l : List (String × List String)) : List (String × List String) :=
  l.mergeSort (fun a b => a.1 ≤ b.1)

/-- Seeding of the prior-run mapping at the top of `analyze_files`:
`if self.file_dates and not self.original_files`. -/
def seedOriginal (s : AnalyzerState) : Option (List (String × List String)) :=
  if !s.file_dates.isEmpty && !pyTruthyDict s.original_files then some s.file_dates
  else s.original_files

/-- The per-file loop body of `analyze_files`, also tracking the `all_bad`
flag and the VBR flag. -/
def analyzeLoop (P : DateParsers) (files : List FileInput)
    (s : AnalyzerState) (allBad : Bool) : AnalyzerState × Bool :=
  match files with
  | [] => (s, allBad)
  | f :: rest =>
      if pyLower f.suffix = ".mp3" || pyLower f.suffix = ".m4a" then
        match analyzeAudioFile f.tags with
        | some meta =>
            let s1 := if !meta.bitrateModeVBR then { s with all_vbr := false } else s
            analyzeLoop P rest (processMetadata P meta f s1) false
        | none => analyzeLoop P rest s allBad
      else analyzeLoop P rest s allBad

/-- `FileAnalyzer.analyze_files`.  The run-termination channel of the
enclosing program (`exit(1)` after a critical failure, as used elsewhere in
the repository) is modelled with `Except Nat`; the returned list carries
the messages logged at the `analyze_files` level. -/
def analyzeFiles (P : DateParsers) (files : List FileInput) (s : AnalyzerState) :
    Except Nat (AnalyzerState × List (String × String)) :=
  let s0 := { s with
    bitrates := [], file_formats := []
    original_files := seedOriginal s
    file_dates := [], all_vbr := true }
  let (s1, allBad) := analyzeLoop P files s0 true
  if allBad then
    Except.ok (s1, [("No valid audio files found", "critical")])
  else
    Except.ok (getDateRange { s1 with file_dates := sortByKey s1.file_dates }, [])

/-! ## `FileOrganizer.find_files_without_episode_numbers` -/

/-- One file of the grouping loop: append a file with an embedded date to
the bucket of its first extracted date. -/
def groupStep (acc : List (String × List String)) (n : String) :
    List (String × List String) :=
  match extractDate n with
  | some d => dictAppend d n acc
  | none => acc

/-- Grouping loop of `find_files_without_episode_numbers`. -/
def groupByDate (names : List String) : List (String × List String) :=
  names.foldl groupStep []

/-- `FileOrganizer.find_files_without_episode_numbers`: keep a bucket when
it holds more than one file, restricted to the files lacking an episode
number; drop it when that restriction is empty. -/
def findFilesWithoutEpisodeNumbers (names : List String) :
    List (String × List String) :=
  (groupByDate names).filterMap (fun p =>
    if p.2.length = 1 then none
    else
      let missing := p.2.filter (fun f => !hasEpNum9 f.data)
      if missing.isEmpty then none else some (p.1, missing))

/-- A file is a candidate of the gap-filling phase when it appears in some
bucket of `find_files_without_episode_numbers`. -/
def isCandidate (names : List String) (f : String) : Bool :=
  (findFilesWithoutEpisodeNumbers names).any (fun p => p.2.contains f)

/-! ## `FileOrganizer.assign_episode_numbers_from_rss` -/

/-- `trailer_regex.search(title)` where the regex is the alternation of the
escaped configured patterns, case-insensitively.  An empty pattern list
compiles to the empty regex, which matches everything. -/
def trailerSearch (patterns : List String) (title : String) : Bool :=
  patterns.isEmpty || patterns.any (fun p => substrCI p title)

/-- The `has_trailer` flag: the reference list is nonempty and its first
title matches the trailer regex. -/
def hasTrailerFlag (patterns : List String) (titles : List String) : Bool :=
  match titles with
  | [] => false
  | t :: _ => trailerSearch patterns t

/-- The title-scanning loop for one candidate file: 1-based enumeration of
the chronological titles, each number decremented when the trailer flag is
set, first normalized-substring match wins. -/
def matchTitleAux (hasT : Bool) (fnameN : List Char) (i : Nat) :
    List String → Option Nat
  | [] => none
  | t :: ts =>
      let n := if hasT then i - 1 else i
      if containsSub (normalizeString t) fnameN then some n
      else matchTitleAux hasT fnameN (i + 1) ts

/-- The episode number the reconciler computes for one candidate file name
against a chronological title list. -/
def assignedEpisodeNumber (titles : List String) (patterns : List String)
    (fname : String) : Option Nat :=
  matchTitleAux (hasTrailerFlag patterns titles) (normalizeString fname) 1 titles

/-- Python exceptions that escape the reconciler. -/
inductive PyErr where
  | indexError
deriving DecidableEq, Repr

/-- One completed assignment of the reconciler: the renamed file, its
sequence number, the zero-padded number, and the new file name. -/
structure Assignment where
  oldName : String
  number : Nat
  padded : String
  newName : String
deriving DecidableEq, Repr

/-- The rename construction for one matched candidate: strip the date from
the name, split on the last free hyphen delimiter, and rebuild with the
default template, `prefix - date Ep. padded - suffix`.  Accessing the
second split part raises `IndexError` when the split yields one part. -/
def buildNewName (numDigitsPad : Nat) (date fname : String) (n : Nat) :
    Except PyErr Assignment :=
  let padded := zfillNat numDigitsPad n
  let originalTitle := pyStrip (stripDateOcc date fname)
  match splitTitleLast originalTitle with
  | p0 :: p1 :: _ =>
      Except.ok
        { oldName := fname, number := n, padded := padded
          newName := pyStrip p0 ++ " - " ++ date ++ " Ep. " ++ padded ++ " - " ++ pyStrip p1 }
  | _ => Except.error PyErr.indexError

/-- Process the files of one date bucket in listing order: skip a file with
no matching title, otherwise build the new name, rename, and propagate the
path change with `update_file_path`. -/
def processBucket (titles : List String) (hasT : Bool) (numDigitsPad : Nat)
    (date : String) (files : List String) (s : AnalyzerState)
    (acc : List Assignment) :
    Except PyErr (AnalyzerState × List Assignment) :=
  match files with
  | [] => Except.ok (s, acc)
  | f :: rest =>
      match matchTitleAux hasT (normalizeString f) 1 titles with
      | none => processBucket titles hasT numDigitsPad date rest s acc
      | some n =>
          match buildNewName numDigitsPad date f n with
          | Except.error e => Except.error e
          | Except.ok a =>
              processBucket titles hasT numDigitsPad date rest
                (updateFilePath s f a.newName) (acc ++ [a])

/-- The bucket loop of `assign_episode_numbers_from_rss`. -/
def assignLoop (titles : List String) (hasT : Bool) (numDigitsPad : Nat)
    (buckets : List (String × List String)) (s : AnalyzerState)
    (acc : List Assignment) :
    Except PyErr (AnalyzerState × List Assignment) :=
  match buckets with
  | [] => Except.ok (s, acc)
  | (date, files) :: rest =>
      match processBucket titles hasT numDigitsPad date files s acc with
      | Except.error e => Except.error e
      | Except.ok (s', acc') => assignLoop titles hasT numDigitsPad rest s' acc'

/-- `FileOrganizer.assign_episode_numbers_from_rss`: reverse the feed-order
titles to chronological order, compute the trailer flag and the pad width
from the title count, then process every bucket.  An uncaught `IndexError`
aborts the whole pass. -/
def assignEpisodeNumbersFromRss (feedTitles : List String)
    (patterns : List String) (buckets : List (String × List String))
    (s : AnalyzerState) : Except PyErr (AnalyzerState × List Assignment) :=
  let titles := feedTitles.reverse
  let hasT := hasTrailerFlag patterns titles
  let numDigitsPad := numDigits titles.length
  assignLoop titles hasT numDigitsPad buckets s []

/-- The three-file instance of the C9 claim. -/
def c9Names : List String :=
  ["A - 2023-01-05 - X.mp3", "A - 2023-01-05 - Y.mp3", "A - 2023-06-01 - Z.mp3"]

/-- Two character lists that agree up to their first point of difference,
which is a digit on both sides: the relation the padding substitution
preserves, so that match failures carry over. -/
def AgreeToDigit (cs cs' : List Char) : Prop :=
  cs = cs' ∨ ∃ a r r' d d', cs = a ++ d :: r ∧ cs' = a ++ d' :: r' ∧
    d.isDigit = true ∧ d'.isDigit = true

/-! ## Spec-side definitions

These two definitions follow the words of the specification, not the
source; they are compared against the source embedding. -/

/-- Running lexicographic minimum step. -/
def minStepStr (a : Option String) (k : String) : Option String :=
  match a with
  | none => some k
  | some m => if strLtB k m then some k else some m

/-- Running lexicographic maximum step. -/
def maxStepStr (a : Option String) (k : String) : Option String :=
  match a with
  | none => some k
  | some m => if strLtB m k then some k else some m

/-- Spec wording: the lexicographic minimum of a set of date keys. -/
def specLexMin (ks : List String) : Option String :=
  ks.foldl minStepStr none

/-- Spec wording: the lexicographic maximum of a set of date keys. -/
def specLexMax (ks : List String) : Option String :=
  ks.foldl maxStepStr none

/-- A date key that takes part in the bound computations of
`get_date_range`: not the Unknown sentinel, and with an int-parseable
4-character prefix. -/
def validDateKey (k : String) : Bool :=
  k ≠ "Unknown" && (pyInt4 k).isSome

/-- Ordered comparison on optional date bounds, `none` as plus infinity. -/
def leOptS (a b : Option String) : Prop :=
  ∀ x, b = some x → ∃ y, a = some y ∧ y ≤ x

/-- Ordered comparison on optional date bounds, `none` as minus infinity. -/
def geOptS (a b : Option String) : Prop :=
  ∀ x, b = some x → ∃ y, a = some y ∧ x ≤ y

/-! ## Lemmas -/

theorem chLtB_iff : ∀ as bs : List Char, chLtB as bs = true ↔ List.lt as bs := by
  intro as
  induction as with
  | nil =>
      intro bs
      cases bs with
      | nil =>
          constructor
          · intro h; exact absurd h (by simp [chLtB])
          · intro h; exact absurd h (by intro h2; nomatch h2)
      | cons b bs =>
          constructor
          · intro _; exact List.lt.nil b bs
          · intro _; rfl
  | cons a as ih =>
      intro bs
      cases bs with
      | nil =>
          constructor
          · intro h; exact absurd h (by simp [chLtB])
          · intro h; exact absurd h (by intro h2; nomatch h2)
      | cons b bs =>
          unfold chLtB
          have hab : a < b ↔ a.toNat < b.toNat := Iff.rfl
          have hba : b < a ↔ b.toNat < a.toNat := Iff.rfl
          by_cases h1 : a.toNat < b.toNat
          · rw [if_pos h1]
            constructor
            · intro _; exact List.lt.head as bs (hab.mpr h1)
            · intro _; rfl
          · by_cases h2 : b.toNat < a.toNat
            · rw [if_neg h1, if_pos h2]
              constructor
              · intro h; exact Bool.noConfusion h
              · intro h
                cases h with
                | head _ _ h3 => exact absurd (hab.mp h3) h1
                | tail _ h4 _ => exact absurd (hba.mpr h2) h4
            · rw [if_neg h1, if_neg h2, ih bs]
              constructor
              · intro h
                exact List.lt.tail (fun h3 => h1 (hab.mp h3))
                  (fun h3 => h2 (hba.mp h3)) h
              · intro h
                cases h with
                | head _ _ h3 => exact absurd (hab.mp h3) h1
                | tail _ _ h3 => exact h3

theorem strLtB_iff (a b : String) : strLtB a b = true ↔ a < b :=
  (chLtB_iff a.data b.data).trans
    (String.lt_iff_toList_lt.trans (List.lt_iff_lex_lt a.data b.data).symm).symm

theorem strLtB_true_lt {a b : String} (h : strLtB a b = true) : a < b :=
  (strLtB_iff a b).mp h

theorem strLtB_not_lt {a b : String} (h : ¬ strLtB a b = true) : b ≤ a :=
  le_of_not_lt (fun h2 => h ((strLtB_iff a b).mpr h2))

theorem matchTitleAux_trailer_map (f : List Char) (ts : List String) : ∀ i : Nat,
    matchTitleAux true f i ts = (matchTitleAux false f i ts).map (fun n => n - 1) := by
  induction ts with
  | nil => intro i; rfl
  | cons t ts ih =>
      intro i
      simp only [matchTitleAux]
      by_cases h : containsSub (normalizeString t) f
      · simp [h]
      · simp [h, ih (i + 1)]

/-- C1: when the first chronological reference title matches a configured
trailer pattern, every computed 1-based sequence number is decremented by
one before use; in particular, for reference titles
`["Trailer", "Ep 1 Launch", "Ep 2 Growth"]` with trailer pattern
`"trailer"`, the candidate file whose normalized name contains the
normalized title `"Ep 1 Launch"` is assigned number 1, not 2. -/
theorem c1_trailer_decrement :
    (∀ (patterns titles : List String) (fname t : String) (ts : List String)
        (p : String), titles = t :: ts → p ∈ patterns → substrCI p t = true →
      assignedEpisodeNumber titles patterns fname =
        (matchTitleAux false (normalizeString fname) 1 titles).map (fun n => n - 1))
  ∧ assignedEpisodeNumber ["Trailer", "Ep 1 Launch", "Ep 2 Growth"] ["trailer"]
      "A - 2023-01-05 - Ep 1 Launch.mp3" = some 1 := by
  constructor
  · intro patterns titles fname t ts p htitles hp hsub
    subst htitles
    have htr : hasTrailerFlag patterns (t :: ts) = true := by
      simp only [hasTrailerFlag, trailerSearch, Bool.or_eq_true, List.any_eq_true]
      exact Or.inr ⟨p, hp, hsub⟩
    simp only [assignedEpisodeNumber, htr]
    exact matchTitleAux_trailer_map _ _ 1
  · rfl

/-- Witness for `c1_trailer_decrement`: the general decrement law applied at
the concrete reference titles of the claim. -/
theorem c1_trailer_decrement_witness :
    assignedEpisodeNumber ["Trailer", "Ep 1 Launch", "Ep 2 Growth"] ["trailer"]
        "A - 2023-01-05 - Ep 1 Launch.mp3" =
      (matchTitleAux false
          (normalizeString "A - 2023-01-05 - Ep 1 Launch.mp3") 1
          ["Trailer", "Ep 1 Launch", "Ep 2 Growth"]).map (fun n => n - 1) :=
  c1_trailer_decrement.1 ["trailer"] _ _ "Trailer" ["Ep 1 Launch", "Ep 2 Growth"]
    "trailer" rfl (List.mem_singleton.mpr rfl) (by decide)

/-- C4: the date normalization cascade.  With a truthy raw token, strict
formats come first, the lenient parser second, the RFC-822 parser third,
and "Unknown" results when all three fail, regardless of the file name and
modification time; the file-name search and the modification-time fallback
run only without a raw token, in that order. -/
theorem c4_date_cascade (P : DateParsers) (raw fname : String)
    (mtime : Option DateObj) :
    (raw ≠ "" → ∀ d, strictParse P raw = some d →
      dateKey P (some raw) fname mtime = d.ymd)
  ∧ (raw ≠ "" → strictParse P raw = none → ∀ d, P.lenient raw = some d →
      dateKey P (some raw) fname mtime = d.ymd)
  ∧ (raw ≠ "" → strictParse P raw = none → P.lenient raw = none →
      ∀ d, P.rfc822 raw = some d → dateKey P (some raw) fname mtime = d.ymd)
  ∧ (raw ≠ "" → strictParse P raw = none → P.lenient raw = none →
      P.rfc822 raw = none → dateKey P (some raw) fname mtime = "Unknown")
  ∧ (∀ ds, extractDate fname = some ds → (P.strptime "%Y-%m-%d" ds).isSome →
      dateKey P none fname mtime = ds)
  ∧ (∀ ds, extractDate fname = some ds → P.strptime "%Y-%m-%d" ds = none →
      dateKey P none fname mtime = "Unknown")
  ∧ (extractDate fname = none → ∀ d, mtime = some d →
      dateKey P none fname mtime = d.ymd)
  ∧ (extractDate fname = none → mtime = none →
      dateKey P none fname mtime = "Unknown") := by
  refine ⟨?_, ?_, ?_, ?_, ?_, ?_, ?_, ?_⟩
  · intro hraw d hd
    simp [dateKey, rawDateKey, hraw, hd]
  · intro hraw hs d hd
    simp [dateKey, rawDateKey, hraw, hs, hd]
  · intro hraw hs hl d hd
    simp [dateKey, rawDateKey, hraw, hs, hl, hd]
  · intro hraw hs hl hr
    simp [dateKey, rawDateKey, hraw, hs, hl, hr]
  · intro ds hds hv
    rw [Option.isSome_iff_exists] at hv
    obtain ⟨d, hd⟩ := hv
    simp [dateKey, fallbackDateKey, hds, hd]
  · intro ds hds hv
    simp [dateKey, fallbackDateKey, hds, hv]
  · intro hds d hd
    simp [dateKey, fallbackDateKey, hds, hd]
  · intro hds hd
    simp [dateKey, fallbackDateKey, hds, hd]

/-- Witness for `c4_date_cascade`: with parsers that always fail, a truthy
raw token yields "Unknown" even though the file name embeds a date and a
modification time exists; without a raw token the embedded file-name date
wins. -/
theorem c4_date_cascade_witness :
    dateKey ⟨fun _ _ => none, fun _ => none, fun _ => none⟩ (some "not a date")
        "x 2023-01-05 y.mp3" (some ⟨2000, "2000-01-01"⟩) = "Unknown"
  ∧ dateKey ⟨fun _ _ => some ⟨2023, "2023-01-05"⟩, fun _ => none, fun _ => none⟩
        none "x 2023-01-05 y.mp3" (some ⟨2000, "2000-01-01"⟩) = "2023-01-05" := by
  constructor
  · exact (c4_date_cascade ⟨fun _ _ => none, fun _ => none, fun _ => none⟩
      "not a date" "x 2023-01-05 y.mp3" (some ⟨2000, "2000-01-01"⟩)).2.2.2.1
      (by decide) rfl rfl rfl
  · exact (c4_date_cascade
      ⟨fun _ _ => some ⟨2023, "2023-01-05"⟩, fun _ => none, fun _ => none⟩
      "" "x 2023-01-05 y.mp3" (some ⟨2000, "2000-01-01"⟩)).2.2.2.2.1
      "2023-01-05" (by decide) rfl

theorem bucketUpdate_roundtrip (old new : String) (l : List String)
    (h : new ∉ l) :
    (bucketUpdate new old (bucketUpdate old new l)).Perm l := by
  by_cases h1 : old ∈ l
  · have hne : new ∉ l.erase old := fun hmem => h (List.mem_of_mem_erase hmem)
    have h2 : new ∈ l.erase old ++ [new] :=
      List.mem_append_right _ (List.mem_singleton.mpr rfl)
    simp only [bucketUpdate, if_pos h1, if_pos h2]
    rw [List.erase_append_right _ hne]
    simp only [List.erase_cons_head, List.append_nil]
    exact (List.perm_append_singleton old (l.erase old)).trans
      (List.perm_cons_erase h1).symm
  · simp only [bucketUpdate, if_neg h1, if_neg h]
    exact List.Perm.refl l

theorem forall2_map_self {α β : Type} (R : α → β → Prop) (f : α → β)
    (l : List α) (h : ∀ x ∈ l, R x (f x)) : List.Forall₂ R l (l.map f) := by
  induction l with
  | nil => exact List.Forall₂.nil
  | cons a l ih =>
      exact List.Forall₂.cons (h a (List.mem_cons_self a l))
        (ih fun x hx => h x (List.mem_cons_of_mem a hx))

/-- Counterexample to C6: with a date bucket `["a", "b"]`, updating the
path `"a"` to the fresh path `"c"` and back does not restore the bucket
exactly; the moved path ends up at the end of the bucket. -/
theorem c6_counterexample :
    updateFilePath
        (updateFilePath { initState with file_dates := [("2023-01-01", ["a", "b"])] }
          "a" "c")
        "c" "a" ≠
      { initState with file_dates := [("2023-01-01", ["a", "b"])] } := by
  decide

/-- C6 amended: for every state and paths old and new where new appears in
no bucket, updating old to new and then new to old restores every date,
bitrate and format bucket up to permutation (the same multiset of paths;
old is moved to the end of each bucket that contained it), with the bucket
keys unchanged. -/
theorem c6_roundtrip_perm (s : AnalyzerState) (old new : String)
    (hd : ∀ p ∈ s.file_dates, new ∉ p.2)
    (hb : ∀ p ∈ s.bitrates, new ∉ p.2)
    (hf : ∀ p ∈ s.file_formats, new ∉ p.2) :
    List.Forall₂ (fun p q => p.1 = q.1 ∧ List.Perm q.2 p.2) s.file_dates
        (updateFilePath (updateFilePath s old new) new old).file_dates
  ∧ List.Forall₂ (fun p q => p.1 = q.1 ∧ List.Perm q.2 p.2) s.bitrates
        (updateFilePath (updateFilePath s old new) new old).bitrates
  ∧ List.Forall₂ (fun p q => p.1 = q.1 ∧ List.Perm q.2 p.2) s.file_formats
        (updateFilePath (updateFilePath s old new) new old).file_formats := by
  simp only [updateFilePath, List.map_map]
  refine ⟨?_, ?_, ?_⟩
  · exact forall2_map_self _ _ _ fun p hp =>
      ⟨rfl, bucketUpdate_roundtrip old new p.2 (hd p hp)⟩
  · exact forall2_map_self _ _ _ fun p hp =>
      ⟨rfl, bucketUpdate_roundtrip old new p.2 (hb p hp)⟩
  · exact forall2_map_self _ _ _ fun p hp =>
      ⟨rfl, bucketUpdate_roundtrip old new p.2 (hf p hp)⟩

/-- Witness for `c6_roundtrip_perm` at the state of the counterexample. -/
theorem c6_roundtrip_perm_witness :
    List.Forall₂ (fun p q => p.1 = q.1 ∧ List.Perm q.2 p.2)
      [("2023-01-01", ["a", "b"])]
      (updateFilePath
          (updateFilePath { initState with file_dates := [("2023-01-01", ["a", "b"])] }
            "a" "c")
          "c" "a").file_dates :=
  (c6_roundtrip_perm { initState with file_dates := [("2023-01-01", ["a", "b"])] }
    "a" "c" (by decide) (by decide) (by decide)).1

/-- C10: when a candidate file matches a reference title but its name,
after date stripping, has no occurrence of the title-split delimiter (the
split yields one part), the rename step raises an uncaught IndexError that
aborts the whole reconciliation pass, regardless of the remaining files. -/
theorem c10_split_index_error (feedTitles patterns : List String)
    (date fname : String) (rest : List String) (s : AnalyzerState) (n : Nat)
    (hm : matchTitleAux (hasTrailerFlag patterns feedTitles.reverse)
        (normalizeString fname) 1 feedTitles.reverse = some n)
    (hs : (splitTitleLast (pyStrip (stripDateOcc date fname))).length = 1) :
    assignEpisodeNumbersFromRss feedTitles patterns [(date, fname :: rest)] s =
      Except.error PyErr.indexError := by
  obtain ⟨a, ha⟩ : ∃ a, splitTitleLast (pyStrip (stripDateOcc date fname)) = [a] := by
    match hsp : splitTitleLast (pyStrip (stripDateOcc date fname)) with
    | [] => rw [hsp] at hs; simp at hs
    | [a] => exact ⟨a, rfl⟩
    | a :: b :: t => rw [hsp] at hs; simp at hs
  have hb : buildNewName (numDigits feedTitles.reverse.length) date fname n =
      Except.error PyErr.indexError := by
    simp only [buildNewName, ha]
  simp only [assignEpisodeNumbersFromRss, assignLoop, processBucket, hm, hb]

/-- Witness for `c10_split_index_error`: a file whose name starts with the
date and has no free hyphen delimiter left after stripping it. -/
theorem c10_split_index_error_witness :
    assignEpisodeNumbersFromRss ["My Show"] []
        [("2023-01-05", ["2023-01-05 My Show.mp3", "other.mp3"])] initState =
      Except.error PyErr.indexError :=
  c10_split_index_error ["My Show"] [] "2023-01-05" "2023-01-05 My Show.mp3"
    ["other.mp3"] initState 0 (by decide) (by decide)

/-- Date parsers that always fail, for concrete runs. -/
def failParsers : DateParsers :=
  ⟨fun _ _ => none, fun _ => none, fun _ => none⟩

/-- A file whose format `mutagen` does not recognize: `analyze_audio_file`
yields no metadata for it. -/
def unsupportedFile : FileInput :=
  { name := "bad.mp3", suffix := ".mp3"
    tags := { kind := AudioKind.other, hasInfo := true, tdrc := none
              tagsReadError := false, easyError := false, easyDate := none
              easyOriginalDate := none, easyYear := none
              txxxReleasedate := none, bitrateKbps := 0, vbr := false }
    mtime := none }

/-- Counterexample to C3: when every file of the scan fails to yield
metadata, `analyze_files` logs the critical message and returns normally to
its caller; it raises nothing and does not terminate the enclosing run
(the result is `Except.ok`, not an escalation). -/
theorem c3_counterexample :
    analyzeFiles failParsers [unsupportedFile] initState =
      Except.ok (initState, [("No valid audio files found", "critical")]) :=
  rfl

theorem analyzeLoop_all_bad (P : DateParsers) (files : List FileInput) :
    ∀ s : AnalyzerState,
    (∀ f ∈ files, (pyLower f.suffix = ".mp3" || pyLower f.suffix = ".m4a") = true →
      analyzeAudioFile f.tags = none) →
    analyzeLoop P files s true = (s, true) := by
  induction files with
  | nil => intro s _; rfl
  | cons f rest ih =>
      intro s h
      simp only [analyzeLoop]
      by_cases hs : (pyLower f.suffix = ".mp3" || pyLower f.suffix = ".m4a") = true
      · rw [if_pos hs, h f (List.mem_cons_self f rest) hs]
        exact ih s fun g hg => h g (List.mem_cons_of_mem f hg)
      · rw [if_neg hs]
        exact ih s fun g hg => h g (List.mem_cons_of_mem f hg)

/-- C3 amended: when every file of the scan with an audio suffix fails to
yield metadata, the failure is logged as critical and processing of the
podcast stops early (the date mapping stays cleared and the bounds are not
recomputed), but `analyze_files` returns control to its caller normally;
no exception or exit escalates to terminate the enclosing run. -/
theorem c3_all_bad_returns (P : DateParsers) (files : List FileInput)
    (s : AnalyzerState)
    (h : ∀ f ∈ files, (pyLower f.suffix = ".mp3" || pyLower f.suffix = ".m4a") = true →
      analyzeAudioFile f.tags = none) :
    analyzeFiles P files s =
      Except.ok
        ({ s with
            bitrates := []
            file_formats := []
            original_files := seedOriginal s
            file_dates := []
            all_vbr := true },
         [("No valid audio files found", "critical")]) := by
  simp only [analyzeFiles, analyzeLoop_all_bad P files _ h]
  simp

/-- Witness for `c3_all_bad_returns` at the unsupported-file input. -/
theorem c3_all_bad_returns_witness :
    analyzeFiles failParsers [unsupportedFile, unsupportedFile] initState =
      Except.ok
        ({ initState with
            bitrates := []
            file_formats := []
            original_files := seedOriginal initState
            file_dates := []
            all_vbr := true },
         [("No valid audio files found", "critical")]) :=
  c3_all_bad_returns failParsers [unsupportedFile, unsupportedFile] initState
    (by decide)

/-- Chronological reference titles for the C5 runs, eleven of them so the
pad width exceeds one digit. -/
def c5Titles : List String :=
  ["The Trailer", "Alpha One", "Bravo Two", "Charlie Three", "Delta Four",
   "Echo Five", "Foxtrot Six", "Golf Seven", "Hotel Eight", "India Nine",
   "Juliet Ten"]

/-- Counterexample to C5, at a run with a matched trailer first title and
eleven reference titles: the first assigned number is 0, not positive, and
the numbers are padded to the width of the title count (two digits), not
to the width of the largest assigned number (one digit). -/
theorem c5_counterexample :
    ¬ (∀ r : AnalyzerState × List Assignment,
        assignEpisodeNumbersFromRss c5Titles.reverse ["trailer"]
            [("2023-01-05",
              ["X - 2023-01-05 - The Trailer.mp3", "X - 2023-01-05 - Alpha One.mp3"])]
            initState = Except.ok r →
        ∀ a ∈ r.2, 0 < a.number)
  ∧ ¬ (∀ r : AnalyzerState × List Assignment,
        assignEpisodeNumbersFromRss c5Titles.reverse ["trailer"]
            [("2023-01-05",
              ["X - 2023-01-05 - The Trailer.mp3", "X - 2023-01-05 - Alpha One.mp3"])]
            initState = Except.ok r →
        ∀ a ∈ r.2,
          a.padded =
            zfillNat (numDigits (maxNat (r.2.map Assignment.number))) a.number) := by
  constructor
  · intro h
    have h0 := h (initState,
      [⟨"X - 2023-01-05 - The Trailer.mp3", 0, "00",
        "X - - 2023-01-05 Ep. 00 - The Trailer.mp3"⟩,
       ⟨"X - 2023-01-05 - Alpha One.mp3", 1, "01",
        "X - - 2023-01-05 Ep. 01 - Alpha One.mp3"⟩]) rfl
    have h1 := h0 ⟨"X - 2023-01-05 - The Trailer.mp3", 0, "00",
      "X - - 2023-01-05 Ep. 00 - The Trailer.mp3"⟩ (by decide)
    exact absurd h1 (by decide)
  · intro h
    have h0 := h (initState,
      [⟨"X - 2023-01-05 - The Trailer.mp3", 0, "00",
        "X - - 2023-01-05 Ep. 00 - The Trailer.mp3"⟩,
       ⟨"X - 2023-01-05 - Alpha One.mp3", 1, "01",
        "X - - 2023-01-05 Ep. 01 - Alpha One.mp3"⟩]) rfl
    have h1 := h0 ⟨"X - 2023-01-05 - Alpha One.mp3", 1, "01",
      "X - - 2023-01-05 Ep. 01 - Alpha One.mp3"⟩ (by decide)
    exact absurd h1 (by decide)

theorem matchTitleAux_shape (hasT : Bool) (f : List Char) (ts : List String) :
    ∀ i n, matchTitleAux hasT f i ts = some n →
      ∃ j, i ≤ j ∧ j < i + ts.length ∧ n = if hasT then j - 1 else j := by
  induction ts with
  | nil => intro i n h; simp [matchTitleAux] at h
  | cons t ts ih =>
      intro i n h
      simp only [matchTitleAux] at h
      by_cases hc : containsSub (normalizeString t) f
      · rw [if_pos hc] at h
        refine ⟨i, le_refl i, ?_, ?_⟩
        · simp only [List.length_cons]; omega
        · cases h; rfl
      · rw [if_neg hc] at h
        obtain ⟨j, hij, hjl, hn⟩ := ih (i + 1) n h
        refine ⟨j, by omega, ?_, hn⟩
        simp only [List.length_cons]; omega

theorem buildNewName_fields (D : Nat) (date fname : String) (n : Nat)
    (a : Assignment) (h : buildNewName D date fname n = Except.ok a) :
    a.number = n ∧ a.padded = zfillNat D n := by
  match hsp : splitTitleLast (pyStrip (stripDateOcc date fname)) with
  | [] =>
      simp only [buildNewName, hsp] at h
      exact Except.noConfusion h
  | [p] =>
      simp only [buildNewName, hsp] at h
      exact Except.noConfusion h
  | p0 :: p1 :: t =>
      simp only [buildNewName, hsp, Except.ok.injEq] at h
      subst h
      exact ⟨rfl, rfl⟩

theorem processBucket_numbers (titles : List String) (hasT : Bool) (D : Nat)
    (date : String) (files : List String) :
    ∀ s acc s' acc',
      processBucket titles hasT D date files s acc = Except.ok (s', acc') →
      (∀ a ∈ acc, ∃ j, 1 ≤ j ∧ j ≤ titles.length ∧
        a.number = (if hasT then j - 1 else j) ∧ a.padded = zfillNat D a.number) →
      ∀ a ∈ acc', ∃ j, 1 ≤ j ∧ j ≤ titles.length ∧
        a.number = (if hasT then j - 1 else j) ∧ a.padded = zfillNat D a.number := by
  induction files with
  | nil =>
      intro s acc s' acc' h hacc
      simp only [processBucket, Except.ok.injEq, Prod.mk.injEq] at h
      rw [← h.2]
      exact hacc
  | cons f rest ih =>
      intro s acc s' acc' h hacc
      match hm : matchTitleAux hasT (normalizeString f) 1 titles with
      | none =>
          simp only [processBucket, hm] at h
          exact ih s acc s' acc' h hacc
      | some n =>
          match hb : buildNewName D date f n with
          | Except.error e =>
              simp only [processBucket, hm, hb] at h
              exact Except.noConfusion h
          | Except.ok a0 =>
              simp only [processBucket, hm, hb] at h
              refine ih _ _ s' acc' h ?_
              intro a ha
              rcases List.mem_append.mp ha with hl | hr
              · exact hacc a hl
              · rw [List.mem_singleton.mp hr]
                obtain ⟨hnum, hpad⟩ := buildNewName_fields D date f n a0 hb
                obtain ⟨j, h1j, hjl, hn⟩ := matchTitleAux_shape hasT _ titles 1 n hm
                refine ⟨j, h1j, by omega, ?_, ?_⟩
                · rw [hnum]; exact hn
                · rw [hpad, hnum]

theorem assignLoop_numbers (titles : List String) (hasT : Bool) (D : Nat)
    (buckets : List (String × List String)) :
    ∀ s acc s' acc',
      assignLoop titles hasT D buckets s acc = Except.ok (s', acc') →
      (∀ a ∈ acc, ∃ j, 1 ≤ j ∧ j ≤ titles.length ∧
        a.number = (if hasT then j - 1 else j) ∧ a.padded = zfillNat D a.number) →
      ∀ a ∈ acc', ∃ j, 1 ≤ j ∧ j ≤ titles.length ∧
        a.number = (if hasT then j - 1 else j) ∧ a.padded = zfillNat D a.number := by
  induction buckets with
  | nil =>
      intro s acc s' acc' h hacc
      simp only [assignLoop, Except.ok.injEq, Prod.mk.injEq] at h
      rw [← h.2]
      exact hacc
  | cons b rest ih =>
      intro s acc s' acc' h hacc
      simp only [assignLoop] at h
      match hp : processBucket titles hasT D b.1 b.2 s acc with
      | Except.error e => rw [hp] at h; exact absurd h (by simp)
      | Except.ok (s1, acc1) =>
          rw [hp] at h
          exact ih s1 acc1 s' acc' h
            (processBucket_numbers titles hasT D b.1 b.2 s acc s1 acc1 hp hacc)

/-- C5 amended: every sequence number the reconciler assigns is a
nonnegative integer bounded by the title count; it is positive whenever the
trailer decrement does not apply (a matched trailer first title can drive
the number to 0), and it is zero-padded to the width of the number of
reference titles, not to the width of the largest assigned number. -/
theorem c5_numbers_bounded_padded (feedTitles patterns : List String)
    (buckets : List (String × List String)) (s : AnalyzerState)
    (r : AnalyzerState × List Assignment)
    (h : assignEpisodeNumbersFromRss feedTitles patterns buckets s = Except.ok r) :
    ∀ a ∈ r.2,
      (hasTrailerFlag patterns feedTitles.reverse = false → 1 ≤ a.number)
      ∧ a.number ≤ feedTitles.length
      ∧ a.padded = zfillNat (numDigits feedTitles.length) a.number := by
  intro a ha
  unfold assignEpisodeNumbersFromRss at h
  obtain ⟨j, h1j, hjl, hn, hpad⟩ :=
    assignLoop_numbers feedTitles.reverse
      (hasTrailerFlag patterns feedTitles.reverse)
      (numDigits feedTitles.reverse.length) buckets s [] r.1 r.2
      (by rw [← h]) (by intro x hx; exact absurd hx (List.not_mem_nil x))
      a ha
  rw [List.length_reverse] at hjl
  refine ⟨?_, ?_, ?_⟩
  · intro hf
    rw [hf] at hn
    simp only [Bool.false_eq_true, if_false] at hn
    omega
  · rw [hn]
    split <;> omega
  · rw [List.length_reverse] at hpad
    exact hpad

/-- Witness for `c5_numbers_bounded_padded` at the C5 run, instantiated at the
second assignment of that run. -/
theorem c5_numbers_bounded_padded_witness :
    (hasTrailerFlag ["trailer"] c5Titles.reverse.reverse = false →
      1 ≤ (⟨"X - 2023-01-05 - Alpha One.mp3", 1, "01",
            "X - - 2023-01-05 Ep. 01 - Alpha One.mp3"⟩ : Assignment).number)
    ∧ (⟨"X - 2023-01-05 - Alpha One.mp3", 1, "01",
        "X - - 2023-01-05 Ep. 01 - Alpha One.mp3"⟩ : Assignment).number ≤
        c5Titles.reverse.length
    ∧ (⟨"X - 2023-01-05 - Alpha One.mp3", 1, "01",
        "X - - 2023-01-05 Ep. 01 - Alpha One.mp3"⟩ : Assignment).padded =
        zfillNat (numDigits c5Titles.reverse.length)
          (⟨"X - 2023-01-05 - Alpha One.mp3", 1, "01",
            "X - - 2023-01-05 Ep. 01 - Alpha One.mp3"⟩ : Assignment).number :=
  c5_numbers_bounded_padded c5Titles.reverse ["trailer"]
    [("2023-01-05",
      ["X - 2023-01-05 - The Trailer.mp3", "X - 2023-01-05 - Alpha One.mp3"])]
    initState
    (initState,
      [⟨"X - 2023-01-05 - The Trailer.mp3", 0, "00",
        "X - - 2023-01-05 Ep. 00 - The Trailer.mp3"⟩,
       ⟨"X - 2023-01-05 - Alpha One.mp3", 1, "01",
        "X - - 2023-01-05 Ep. 01 - Alpha One.mp3"⟩]) rfl
    ⟨"X - 2023-01-05 - Alpha One.mp3", 1, "01",
      "X - - 2023-01-05 Ep. 01 - Alpha One.mp3"⟩
    (List.mem_cons_of_mem _ (List.mem_cons_self _ _))

theorem currentStep_invalid (b : Bounds) (k : String)
    (h : validDateKey k = false) : currentStep b k = b := by
  unfold validDateKey at h
  unfold currentStep
  by_cases hu : k = "Unknown"
  · rw [if_pos hu]
  · rw [if_neg hu]
    match hp : pyInt4 k with
    | none => rfl
    | some y =>
        rw [hp] at h
        simp [hu] at h

theorem currentStep_valid_first (b : Bounds) (k : String) (y : Int)
    (hu : k ≠ "Unknown") (hp : pyInt4 k = some y) :
    (currentStep b k).first = minStepStr b.first k := by
  unfold currentStep minStepStr
  rw [if_neg hu, hp]
  match b.first with
  | none => rfl
  | some f0 => by_cases hk : strLtB k f0 = true <;> simp [hk]

theorem currentStep_valid_last (b : Bounds) (k : String) (y : Int)
    (hu : k ≠ "Unknown") (hp : pyInt4 k = some y) :
    (currentStep b k).last = maxStepStr b.last k := by
  unfold currentStep maxStepStr
  rw [if_neg hu, hp]
  match b.last with
  | none => rfl
  | some l0 => by_cases hk : strLtB l0 k = true <;> simp [hk]

theorem currentPass_first (ks : List String) : ∀ b : Bounds,
    (currentPass ks b).first = (ks.filter validDateKey).foldl minStepStr b.first := by
  induction ks with
  | nil => intro b; rfl
  | cons k ks ih =>
      intro b
      show (currentPass ks (currentStep b k)).first = _
      match hv : validDateKey k with
      | false =>
          rw [currentStep_invalid b k hv, ih]
          simp [List.filter_cons, hv]
      | true =>
          have hu : k ≠ "Unknown" := by
            unfold validDateKey at hv
            intro hk
            rw [hk] at hv
            simp at hv
          have hp : (pyInt4 k).isSome := by
            unfold validDateKey at hv
            simp only [Bool.and_eq_true, decide_eq_true_eq] at hv
            exact hv.2
          obtain ⟨y, hy⟩ := Option.isSome_iff_exists.mp hp
          rw [ih, currentStep_valid_first b k y hu hy]
          simp [List.filter_cons, hv]

theorem currentPass_last (ks : List String) : ∀ b : Bounds,
    (currentPass ks b).last = (ks.filter validDateKey).foldl maxStepStr b.last := by
  induction ks with
  | nil => intro b; rfl
  | cons k ks ih =>
      intro b
      show (currentPass ks (currentStep b k)).last = _
      match hv : validDateKey k with
      | false =>
          rw [currentStep_invalid b k hv, ih]
          simp [List.filter_cons, hv]
      | true =>
          have hu : k ≠ "Unknown" := by
            unfold validDateKey at hv
            intro hk
            rw [hk] at hv
            simp at hv
          have hp : (pyInt4 k).isSome := by
            unfold validDateKey at hv
            simp only [Bool.and_eq_true, decide_eq_true_eq] at hv
            exact hv.2
          obtain ⟨y, hy⟩ := Option.isSome_iff_exists.mp hp
          rw [ih, currentStep_valid_last b k y hu hy]
          simp [List.filter_cons, hv]

theorem currentPass_rfirst (ks : List String) : ∀ b : Bounds,
    b.rfirst = b.first → (currentPass ks b).rfirst = (currentPass ks b).first := by
  induction ks with
  | nil => intro b h; exact h
  | cons k ks ih =>
      intro b h
      show (currentPass ks (currentStep b k)).rfirst = _
      refine ih _ ?_
      unfold currentStep
      by_cases hu : k = "Unknown"
      · rw [if_pos hu]; exact h
      · rw [if_neg hu]
        match pyInt4 k with
        | none => exact h
        | some y =>
            simp only
            match hf : b.first with
            | none => rfl
            | some f0 =>
                rw [hf] at h
                by_cases hk : strLtB k f0 = true
                · simp [hk]
                · simp [hk, h]

theorem currentPass_rlast (ks : List String) : ∀ b : Bounds,
    b.rlast = b.last → (currentPass ks b).rlast = (currentPass ks b).last := by
  induction ks with
  | nil => intro b h; exact h
  | cons k ks ih =>
      intro b h
      show (currentPass ks (currentStep b k)).rlast = _
      refine ih _ ?_
      unfold currentStep
      by_cases hu : k = "Unknown"
      · rw [if_pos hu]; exact h
      · rw [if_neg hu]
        match pyInt4 k with
        | none => exact h
        | some y =>
            simp only
            match hl : b.last with
            | none => rfl
            | some l0 =>
                rw [hl] at h
                by_cases hk : strLtB l0 k = true
                · simp [hk]
                · simp [hk, h]

theorem leOptS_trans {a b c : Option String} (h1 : leOptS a b) (h2 : leOptS b c) :
    leOptS a c := by
  intro x hx
  obtain ⟨y, hy, hyx⟩ := h2 x hx
  obtain ⟨z, hz, hzy⟩ := h1 y hy
  exact ⟨z, hz, le_trans hzy hyx⟩

theorem geOptS_trans {a b c : Option String} (h1 : geOptS a b) (h2 : geOptS b c) :
    geOptS a c := by
  intro x hx
  obtain ⟨y, hy, hyx⟩ := h2 x hx
  obtain ⟨z, hz, hzy⟩ := h1 y hy
  exact ⟨z, hz, le_trans hyx hzy⟩

theorem minStepStr_le (a : Option String) (k : String) :
    ∃ z, minStepStr a k = some z ∧ z ≤ k := by
  unfold minStepStr
  match a with
  | none => exact ⟨k, rfl, le_refl k⟩
  | some m =>
      by_cases hk : strLtB k m = true
      · exact ⟨k, by simp [hk], le_refl k⟩
      · exact ⟨m, by simp [hk], strLtB_not_lt hk⟩

theorem maxStepStr_ge (a : Option String) (k : String) :
    ∃ z, maxStepStr a k = some z ∧ k ≤ z := by
  unfold maxStepStr
  match a with
  | none => exact ⟨k, rfl, le_refl k⟩
  | some m =>
      by_cases hk : strLtB m k = true
      · exact ⟨k, by simp [hk], le_refl k⟩
      · exact ⟨m, by simp [hk], strLtB_not_lt hk⟩

theorem minFold_le_init (ks : List String) :
    ∀ a, leOptS (ks.foldl minStepStr a) a := by
  induction ks with
  | nil => intro a x hx; exact ⟨x, hx, le_refl x⟩
  | cons k ks ih =>
      intro a x hx
      have step : ∃ z, minStepStr a k = some z ∧ z ≤ x := by
        rw [hx]
        unfold minStepStr
        by_cases hk : strLtB k x = true
        · exact ⟨k, by simp [hk], le_of_lt (strLtB_true_lt hk)⟩
        · exact ⟨x, by simp [hk], le_refl x⟩
      obtain ⟨z, hz, hzx⟩ := step
      obtain ⟨y, hy, hyz⟩ := ih (minStepStr a k) z hz
      exact ⟨y, by simpa using hy, le_trans hyz hzx⟩

theorem maxFold_ge_init (ks : List String) :
    ∀ a, geOptS (ks.foldl maxStepStr a) a := by
  induction ks with
  | nil => intro a x hx; exact ⟨x, hx, le_refl x⟩
  | cons k ks ih =>
      intro a x hx
      have step : ∃ z, maxStepStr a k = some z ∧ x ≤ z := by
        rw [hx]
        unfold maxStepStr
        by_cases hk : strLtB x k = true
        · exact ⟨k, by simp [hk], le_of_lt (strLtB_true_lt hk)⟩
        · exact ⟨x, by simp [hk], le_refl x⟩
      obtain ⟨z, hz, hzx⟩ := step
      obtain ⟨y, hy, hyz⟩ := ih (maxStepStr a k) z hz
      exact ⟨y, by simpa using hy, le_trans hzx hyz⟩

theorem minFold_mem (ks : List String) :
    ∀ a k, k ∈ ks → ∃ y, ks.foldl minStepStr a = some y ∧ y ≤ k := by
  induction ks with
  | nil => intro a k hk; exact absurd hk (List.not_mem_nil k)
  | cons k0 ks ih =>
      intro a k hk
      rcases List.mem_cons.mp hk with he | hm
      · subst he
        obtain ⟨z, hz1, hz2⟩ := minStepStr_le a k
        obtain ⟨y, hy1, hy2⟩ := minFold_le_init ks (minStepStr a k) z hz1
        exact ⟨y, by simpa using hy1, le_trans hy2 hz2⟩
      · have := ih (minStepStr a k0) k hm
        simpa using this

theorem maxFold_mem (ks : List String) :
    ∀ a k, k ∈ ks → ∃ y, ks.foldl maxStepStr a = some y ∧ k ≤ y := by
  induction ks with
  | nil => intro a k hk; exact absurd hk (List.not_mem_nil k)
  | cons k0 ks ih =>
      intro a k hk
      rcases List.mem_cons.mp hk with he | hm
      · subst he
        obtain ⟨z, hz1, hz2⟩ := maxStepStr_ge a k
        obtain ⟨y, hy1, hy2⟩ := maxFold_ge_init ks (maxStepStr a k) z hz1
        exact ⟨y, by simpa using hy1, le_trans hz2 hy2⟩
      · have := ih (maxStepStr a k0) k hm
        simpa using this

theorem originalStep_first (b : Bounds) (k : String) :
    (originalStep b k).first = b.first := by
  unfold originalStep; split <;> rfl

theorem originalStep_last (b : Bounds) (k : String) :
    (originalStep b k).last = b.last := by
  unfold originalStep; split <;> rfl

theorem originalPass_first (ks : List String) : ∀ b : Bounds,
    (originalPass ks b).first = b.first := by
  induction ks with
  | nil => intro b; rfl
  | cons k ks ih =>
      intro b
      show (originalPass ks (originalStep b k)).first = b.first
      rw [ih, originalStep_first]

theorem originalPass_last (ks : List String) : ∀ b : Bounds,
    (originalPass ks b).last = b.last := by
  induction ks with
  | nil => intro b; rfl
  | cons k ks ih =>
      intro b
      show (originalPass ks (originalStep b k)).last = b.last
      rw [ih, originalStep_last]

theorem originalStep_rfirst_le (b : Bounds) (k : String) :
    leOptS (originalStep b k).rfirst b.rfirst := by
  intro x hx
  unfold originalStep
  by_cases hu : k = "Unknown"
  · rw [if_pos hu]; exact ⟨x, hx, le_refl x⟩
  · rw [if_neg hu]
    simp only [hx]
    by_cases hk : k ≠ "" ∧ strLtB k x = true
    · exact ⟨k, by rw [if_pos hk], le_of_lt (strLtB_true_lt hk.2)⟩
    · exact ⟨x, by rw [if_neg hk], le_refl x⟩

theorem originalStep_rlast_ge (b : Bounds) (k : String) :
    geOptS (originalStep b k).rlast b.rlast := by
  intro x hx
  unfold originalStep
  by_cases hu : k = "Unknown"
  · rw [if_pos hu]; exact ⟨x, hx, le_refl x⟩
  · rw [if_neg hu]
    simp only [hx]
    by_cases hk : k ≠ "" ∧ strLtB x k = true
    · exact ⟨k, by rw [if_pos hk], le_of_lt (strLtB_true_lt hk.2)⟩
    · exact ⟨x, by rw [if_neg hk], le_refl x⟩

theorem originalPass_rfirst_le (ks : List String) : ∀ b : Bounds,
    leOptS (originalPass ks b).rfirst b.rfirst := by
  induction ks with
  | nil => intro b x hx; exact ⟨x, hx, le_refl x⟩
  | cons k ks ih =>
      intro b
      exact leOptS_trans (ih (originalStep b k)) (originalStep_rfirst_le b k)

theorem originalPass_rlast_ge (ks : List String) : ∀ b : Bounds,
    geOptS (originalPass ks b).rlast b.rlast := by
  induction ks with
  | nil => intro b x hx; exact ⟨x, hx, le_refl x⟩
  | cons k ks ih =>
      intro b
      exact geOptS_trans (ih (originalStep b k)) (originalStep_rlast_ge b k)

theorem originalPass_rfirst_mem (ks : List String) : ∀ b k, k ∈ ks →
    k ≠ "Unknown" → k ≠ "" →
    ∃ y, (originalPass ks b).rfirst = some y ∧ y ≤ k := by
  induction ks with
  | nil => intro b k hk; exact absurd hk (List.not_mem_nil k)
  | cons k0 ks ih =>
      intro b k hk hu he
      rcases List.mem_cons.mp hk with heq | hm
      · subst heq
        have hstep : ∃ v, (originalStep b k).rfirst = some v ∧ v ≤ k := by
          unfold originalStep
          rw [if_neg hu]
          match b.rfirst with
          | none => exact ⟨k, rfl, le_refl k⟩
          | some f0 =>
              by_cases hc : k ≠ "" ∧ strLtB k f0 = true
              · refine ⟨k, ?_, le_refl k⟩
                show (if k ≠ "" ∧ strLtB k f0 = true then some k else some f0) = some k
                rw [if_pos hc]
              · refine ⟨f0, ?_, ?_⟩
                · show (if k ≠ "" ∧ strLtB k f0 = true then some k else some f0) = some f0
                  rw [if_neg hc]
                · rw [not_and] at hc
                  exact strLtB_not_lt (hc he)
        obtain ⟨v, hv1, hv2⟩ := hstep
        obtain ⟨y, hy1, hy2⟩ := originalPass_rfirst_le ks (originalStep b k) v hv1
        exact ⟨y, hy1, le_trans hy2 hv2⟩
      · exact ih (originalStep b k0) k hm hu he

theorem originalPass_rlast_mem (ks : List String) : ∀ b k, k ∈ ks →
    k ≠ "Unknown" → k ≠ "" →
    ∃ y, (originalPass ks b).rlast = some y ∧ k ≤ y := by
  induction ks with
  | nil => intro b k hk; exact absurd hk (List.not_mem_nil k)
  | cons k0 ks ih =>
      intro b k hk hu he
      rcases List.mem_cons.mp hk with heq | hm
      · subst heq
        have hstep : ∃ v, (originalStep b k).rlast = some v ∧ k ≤ v := by
          unfold originalStep
          rw [if_neg hu]
          match b.rlast with
          | none => exact ⟨k, rfl, le_refl k⟩
          | some l0 =>
              by_cases hc : k ≠ "" ∧ strLtB l0 k = true
              · refine ⟨k, ?_, le_refl k⟩
                show (if k ≠ "" ∧ strLtB l0 k = true then some k else some l0) = some k
                rw [if_pos hc]
              · refine ⟨l0, ?_, ?_⟩
                · show (if k ≠ "" ∧ strLtB l0 k = true then some k else some l0) = some l0
                  rw [if_neg hc]
                · rw [not_and] at hc
                  exact strLtB_not_lt (hc he)
        obtain ⟨v, hv1, hv2⟩ := hstep
        obtain ⟨y, hy1, hy2⟩ := originalPass_rlast_ge ks (originalStep b k) v hv1
        exact ⟨y, hy1, le_trans hv2 hy2⟩
      · exact ih (originalStep b k0) k hm hu he

/-- C2: after `get_date_range` recomputes the bounds, the all-time (real)
first and last dates bound every current-scan date key that takes part in
the bound computation, and also every date key of the preserved prior-run
mapping, so re-analysis never shrinks the all-time range. -/
theorem c2_all_time_bounds (s : AnalyzerState) :
    (∀ k, k ∈ (s.file_dates.filter (fun p => !p.2.isEmpty)).map Prod.fst →
        validDateKey k = true →
      (∃ a, (getDateRange s).real_first_episode_date = some a ∧ a ≤ k)
      ∧ (∃ b, (getDateRange s).real_last_episode_date = some b ∧ k ≤ b))
  ∧ (∀ k, pyTruthyDict s.original_files = true →
        k ∈ (s.original_files.getD []).map Prod.fst → k ≠ "Unknown" → k ≠ "" →
      (∃ a, (getDateRange s).real_first_episode_date = some a ∧ a ≤ k)
      ∧ (∃ b, (getDateRange s).real_last_episode_date = some b ∧ k ≤ b)) := by
  have hrfeq : (getDateRange s).real_first_episode_date =
      (if pyTruthyDict s.original_files = true then
        originalPass ((s.original_files.getD []).map Prod.fst)
          (currentPass ((s.file_dates.filter (fun p => !p.2.isEmpty)).map Prod.fst)
            ⟨none, none, none, none, none⟩)
      else
        currentPass ((s.file_dates.filter (fun p => !p.2.isEmpty)).map Prod.fst)
          ⟨none, none, none, none, none⟩).rfirst := rfl
  have hrleq : (getDateRange s).real_last_episode_date =
      (if pyTruthyDict s.original_files = true then
        originalPass ((s.original_files.getD []).map Prod.fst)
          (currentPass ((s.file_dates.filter (fun p => !p.2.isEmpty)).map Prod.fst)
            ⟨none, none, none, none, none⟩)
      else
        currentPass ((s.file_dates.filter (fun p => !p.2.isEmpty)).map Prod.fst)
          ⟨none, none, none, none, none⟩).rlast := rfl
  have hb1f := currentPass_first
    ((s.file_dates.filter (fun p => !p.2.isEmpty)).map Prod.fst)
    ⟨none, none, none, none, none⟩
  have hb1l := currentPass_last
    ((s.file_dates.filter (fun p => !p.2.isEmpty)).map Prod.fst)
    ⟨none, none, none, none, none⟩
  have hb1rf := currentPass_rfirst
    ((s.file_dates.filter (fun p => !p.2.isEmpty)).map Prod.fst)
    ⟨none, none, none, none, none⟩ rfl
  have hb1rl := currentPass_rlast
    ((s.file_dates.filter (fun p => !p.2.isEmpty)).map Prod.fst)
    ⟨none, none, none, none, none⟩ rfl
  constructor
  · intro k hk hv
    have hmem : k ∈ ((s.file_dates.filter (fun p => !p.2.isEmpty)).map
        Prod.fst).filter validDateKey := List.mem_filter.mpr ⟨hk, hv⟩
    obtain ⟨y, hy, hyk⟩ := minFold_mem _ none k hmem
    obtain ⟨z, hz, hzk⟩ := maxFold_mem _ none k hmem
    have hb1rfy : (currentPass ((s.file_dates.filter (fun p => !p.2.isEmpty)).map
        Prod.fst) ⟨none, none, none, none, none⟩).rfirst = some y := by
      rw [hb1rf, hb1f]; exact hy
    have hb1rlz : (currentPass ((s.file_dates.filter (fun p => !p.2.isEmpty)).map
        Prod.fst) ⟨none, none, none, none, none⟩).rlast = some z := by
      rw [hb1rl, hb1l]; exact hz
    by_cases htr : pyTruthyDict s.original_files = true
    · rw [hrfeq, hrleq, if_pos htr]
      constructor
      · obtain ⟨a, ha, hay⟩ := originalPass_rfirst_le _ _ y hb1rfy
        exact ⟨a, ha, le_trans hay hyk⟩
      · obtain ⟨b, hb, hbz⟩ := originalPass_rlast_ge _ _ z hb1rlz
        exact ⟨b, hb, le_trans hzk hbz⟩
    · rw [hrfeq, hrleq, if_neg htr]
      exact ⟨⟨y, hb1rfy, hyk⟩, ⟨z, hb1rlz, hzk⟩⟩
  · intro k htr hk hu he
    rw [hrfeq, hrleq, if_pos htr]
    exact ⟨originalPass_rfirst_mem _ _ k hk hu he,
           originalPass_rlast_mem _ _ k hk hu he⟩

/-- Witness for `c2_all_time_bounds`: prior-run first date 2020-01-01, a
new scan whose earliest date is 2021-01-01; the theorem bounds the all-time
first by both, and the all-time first stays 2020-01-01. -/
theorem c2_all_time_bounds_witness :
    (∃ a, (getDateRange { initState with
        file_dates := [("2021-01-01", ["new.mp3"])]
        original_files := some [("2020-01-01", ["old.mp3"])] }).real_first_episode_date =
      some a ∧ a ≤ "2021-01-01")
  ∧ (∃ a, (getDateRange { initState with
        file_dates := [("2021-01-01", ["new.mp3"])]
        original_files := some [("2020-01-01", ["old.mp3"])] }).real_first_episode_date =
      some a ∧ a ≤ "2020-01-01")
  ∧ (getDateRange { initState with
        file_dates := [("2021-01-01", ["new.mp3"])]
        original_files := some [("2020-01-01", ["old.mp3"])] }).real_first_episode_date =
      some "2020-01-01" :=
  ⟨((c2_all_time_bounds _).1 "2021-01-01" (by decide) (by decide)).1,
   ((c2_all_time_bounds _).2 "2020-01-01" (by decide) (by decide) (by decide)
     (by decide)).1,
   by decide⟩

/-- Counterexample to C8: with current-scan keys 2021-01-01 and 20xx-01-01,
the lexicographic maximum over the keys with only "Unknown" excluded is
"20xx-01-01", but `get_date_range` skips the key whose 4-character prefix
does not parse as an int from the first/last computation as well (the
`continue` after the `ValueError`), so the observed last date is
"2021-01-01". -/
theorem c8_counterexample :
    (getDateRange { initState with
        file_dates := [("2021-01-01", ["a.mp3"]), ("20xx-01-01", ["b.mp3"])] }).last_episode_date ≠
      specLexMax ((([(("2021-01-01" : String), ["a.mp3"]), ("20xx-01-01", ["b.mp3"])].filter
          (fun p => !p.2.isEmpty)).map Prod.fst).filter (fun k => k != "Unknown")) := by
  decide

/-- C8 amended: after recomputation the observed first and last dates equal
the lexicographic minimum and maximum over the current-scan date keys with
"Unknown" excluded and with every key whose first four characters do not
parse as an integer also excluded (such a key is skipped by the whole
bound computation, not only the earliest-year computation); every
nonempty bucket, including ill-formed keys, stays in the date mapping. -/
theorem c8_observed_bounds (s : AnalyzerState) :
    (getDateRange s).first_episode_date =
      specLexMin (((s.file_dates.filter (fun p => !p.2.isEmpty)).map
        Prod.fst).filter validDateKey)
  ∧ (getDateRange s).last_episode_date =
      specLexMax (((s.file_dates.filter (fun p => !p.2.isEmpty)).map
        Prod.fst).filter validDateKey)
  ∧ (getDateRange s).file_dates = s.file_dates.filter (fun p => !p.2.isEmpty) := by
  have hfeq : (getDateRange s).first_episode_date =
      (if pyTruthyDict s.original_files = true then
        originalPass ((s.original_files.getD []).map Prod.fst)
          (currentPass ((s.file_dates.filter (fun p => !p.2.isEmpty)).map Prod.fst)
            ⟨none, none, none, none, none⟩)
      else
        currentPass ((s.file_dates.filter (fun p => !p.2.isEmpty)).map Prod.fst)
          ⟨none, none, none, none, none⟩).first := rfl
  have hleq : (getDateRange s).last_episode_date =
      (if pyTruthyDict s.original_files = true then
        originalPass ((s.original_files.getD []).map Prod.fst)
          (currentPass ((s.file_dates.filter (fun p => !p.2.isEmpty)).map Prod.fst)
            ⟨none, none, none, none, none⟩)
      else
        currentPass ((s.file_dates.filter (fun p => !p.2.isEmpty)).map Prod.fst)
          ⟨none, none, none, none, none⟩).last := rfl
  refine ⟨?_, ?_, rfl⟩
  · by_cases htr : pyTruthyDict s.original_files = true
    · rw [hfeq, if_pos htr, originalPass_first, currentPass_first]; rfl
    · rw [hfeq, if_neg htr, currentPass_first]; rfl
  · by_cases htr : pyTruthyDict s.original_files = true
    · rw [hleq, if_pos htr, originalPass_last, currentPass_last]; rfl
    · rw [hleq, if_neg htr, currentPass_last]; rfl

theorem dictAppend_keys (k : String) (v : String) : ∀ acc,
    (dictAppend k v acc).map Prod.fst =
      if k ∈ acc.map Prod.fst then acc.map Prod.fst else acc.map Prod.fst ++ [k] := by
  intro acc
  induction acc with
  | nil => simp [dictAppend]
  | cons p rest ih =>
      unfold dictAppend
      by_cases hk : p.1 = k
      · rw [if_pos hk]
        simp only [List.map_cons]
        rw [if_pos (by rw [hk]; exact List.mem_cons_self k _)]
      · rw [if_neg hk]
        simp only [List.map_cons, ih]
        by_cases hmem : k ∈ rest.map Prod.fst
        · rw [if_pos hmem, if_pos (List.mem_cons_of_mem _ hmem)]
        · rw [if_neg hmem, if_neg ?_]
          · rfl
          · intro hc
            rcases List.mem_cons.mp hc with he | hm
            · exact hk he.symm
            · exact hmem hm

theorem dictAppend_self_mem (k : String) (v : String) : ∀ acc,
    ∃ fs, (k, fs) ∈ dictAppend k v acc := by
  intro acc
  induction acc with
  | nil => exact ⟨[v], List.mem_singleton.mpr rfl⟩
  | cons p rest ih =>
      unfold dictAppend
      by_cases hk : p.1 = k
      · rw [if_pos hk]
        refine ⟨p.2 ++ [v], ?_⟩
        rw [← hk]
        exact List.mem_cons_self _ _
      · rw [if_neg hk]
        obtain ⟨fs, hfs⟩ := ih
        exact ⟨fs, List.mem_cons_of_mem _ hfs⟩

theorem dictAppend_survive (k : String) (v : String) : ∀ acc d fs0,
    (d, fs0) ∈ acc → ∃ fs, (d, fs) ∈ dictAppend k v acc := by
  intro acc
  induction acc with
  | nil => intro d fs0 h; exact absurd h (List.not_mem_nil _)
  | cons p rest ih =>
      intro d fs0 h
      unfold dictAppend
      by_cases hk : p.1 = k
      · rw [if_pos hk]
        rcases List.mem_cons.mp h with he | hm
        · have hd : d = p.1 := congrArg Prod.fst he
          exact ⟨p.2 ++ [v], by rw [hd]; exact List.mem_cons_self _ _⟩
        · exact ⟨fs0, List.mem_cons_of_mem _ hm⟩
      · rw [if_neg hk]
        rcases List.mem_cons.mp h with he | hm
        · exact ⟨fs0, by rw [he]; exact List.mem_cons_self _ _⟩
        · obtain ⟨fs, hfs⟩ := ih d fs0 hm
          exact ⟨fs, List.mem_cons_of_mem _ hfs⟩

theorem dictAppend_mem_cases (k : String) (v : String) : ∀ acc,
    (acc.map Prod.fst).Nodup →
    ∀ d fs, (d, fs) ∈ dictAppend k v acc →
      (d = k ∧ ((∃ fs0, (k, fs0) ∈ acc ∧ fs = fs0 ++ [v]) ∨
        (k ∉ acc.map Prod.fst ∧ fs = [v])))
      ∨ (d ≠ k ∧ (d, fs) ∈ acc) := by
  intro acc
  induction acc with
  | nil =>
      intro _ d fs h
      unfold dictAppend at h
      have he := List.mem_singleton.mp h
      have hd : d = k := congrArg Prod.fst he
      have hfs : fs = [v] := congrArg Prod.snd he
      exact Or.inl ⟨hd, Or.inr ⟨by simp, hfs⟩⟩
  | cons p rest ih =>
      intro hnd d fs h
      have hnd2 : (p.1 :: rest.map Prod.fst).Nodup := by
        rw [List.map_cons] at hnd; exact hnd
      have hnc := List.nodup_cons.mp hnd2
      have hnp : p.1 ∉ rest.map Prod.fst := hnc.1
      have hnd1 : (rest.map Prod.fst).Nodup := hnc.2
      unfold dictAppend at h
      by_cases hk : p.1 = k
      · rw [if_pos hk] at h
        rcases List.mem_cons.mp h with he | hm
        · have hd : d = p.1 := congrArg Prod.fst he
          have hfs : fs = p.2 ++ [v] := congrArg Prod.snd he
          refine Or.inl ⟨hd.trans hk, Or.inl ⟨p.2, ?_, hfs⟩⟩
          rw [← hk]
          exact List.mem_cons_self _ _
        · by_cases hd : d = k
          · exact absurd (by rw [hk, ← hd]; exact List.mem_map.mpr ⟨(d, fs), hm, rfl⟩) hnp
          · exact Or.inr ⟨hd, List.mem_cons_of_mem _ hm⟩
      · rw [if_neg hk] at h
        rcases List.mem_cons.mp h with he | hm
        · have hd : d = p.1 := congrArg Prod.fst he
          refine Or.inr ⟨by rw [hd]; intro hc; exact hk hc, ?_⟩
          rw [he]
          exact List.mem_cons_self _ _
        · rcases ih hnd1 d fs hm with hl | hr
          · rcases hl.2 with ⟨fs0, hfs0, hfseq⟩ | ⟨hnot, hfseq⟩
            · exact Or.inl ⟨hl.1, Or.inl ⟨fs0, List.mem_cons_of_mem _ hfs0, hfseq⟩⟩
            · refine Or.inl ⟨hl.1, Or.inr ⟨?_, hfseq⟩⟩
              intro hc
              rw [List.map_cons] at hc
              rcases List.mem_cons.mp hc with he2 | hm2
              · exact hk he2.symm
              · exact hnot hm2
          · exact Or.inr ⟨hr.1, List.mem_cons_of_mem _ hr.2⟩

theorem dictAppend_nodup (k : String) (v : String) (acc : List (String × List String))
    (h : (acc.map Prod.fst).Nodup) :
    ((dictAppend k v acc).map Prod.fst).Nodup := by
  rw [dictAppend_keys]
  by_cases hm : k ∈ acc.map Prod.fst
  · rw [if_pos hm]; exact h
  · rw [if_neg hm]
    rw [List.nodup_append]
    refine ⟨h, List.nodup_singleton k, ?_⟩
    intro a ha hb
    rw [List.mem_singleton] at hb
    subst hb
    exact hm ha

theorem groupFold_nodup (names : List String) : ∀ acc,
    (acc.map Prod.fst).Nodup →
    ((names.foldl groupStep acc).map Prod.fst).Nodup := by
  induction names with
  | nil => intro acc h; exact h
  | cons n ns ih =>
      intro acc h
      show ((ns.foldl groupStep (groupStep acc n)).map Prod.fst).Nodup
      refine ih _ ?_
      unfold groupStep
      match extractDate n with
      | some d => exact dictAppend_nodup d n acc h
      | none => exact h

theorem groupFold_survive (names : List String) : ∀ acc d fs0,
    (d, fs0) ∈ acc → ∃ fs, (d, fs) ∈ names.foldl groupStep acc := by
  induction names with
  | nil => intro acc d fs0 h; exact ⟨fs0, h⟩
  | cons n ns ih =>
      intro acc d fs0 h
      show ∃ fs, (d, fs) ∈ ns.foldl groupStep (groupStep acc n)
      unfold groupStep
      match extractDate n with
      | some dn =>
          obtain ⟨fs1, hfs1⟩ := dictAppend_survive dn n acc d fs0 h
          exact ih _ d fs1 hfs1
      | none => exact ih acc d fs0 h

theorem groupFold_cover (names : List String) : ∀ acc g, g ∈ names →
    ∀ d, extractDate g = some d → ∃ fs, (d, fs) ∈ names.foldl groupStep acc := by
  induction names with
  | nil => intro acc g hg; exact absurd hg (List.not_mem_nil g)
  | cons n ns ih =>
      intro acc g hg d hd
      rcases List.mem_cons.mp hg with he | hm
      · subst he
        show ∃ fs, (d, fs) ∈ ns.foldl groupStep (groupStep acc g)
        have hstep : groupStep acc g = dictAppend d g acc := by
          unfold groupStep; rw [hd]
        rw [hstep]
        obtain ⟨fs1, hfs1⟩ := dictAppend_self_mem d g acc
        exact groupFold_survive ns _ d fs1 hfs1
      · exact ih (groupStep acc n) g hm d hd

theorem groupFold_mem (names : List String) : ∀ acc,
    (acc.map Prod.fst).Nodup →
    ∀ d fs, (d, fs) ∈ names.foldl groupStep acc →
      (∃ fs0, (d, fs0) ∈ acc ∧
        fs = fs0 ++ names.filter (fun g => extractDate g = some d))
      ∨ (d ∉ acc.map Prod.fst ∧
        fs = names.filter (fun g => extractDate g = some d)) := by
  induction names with
  | nil =>
      intro acc _ d fs h
      exact Or.inl ⟨fs, h, by simp⟩
  | cons n ns ih =>
      intro acc hnd d fs h
      replace h : (d, fs) ∈ ns.foldl groupStep (groupStep acc n) := h
      match hed : extractDate n with
      | none =>
          have hstep : groupStep acc n = acc := by unfold groupStep; rw [hed]
          rw [hstep] at h
          have hfil : (n :: ns).filter (fun g => extractDate g = some d) =
              ns.filter (fun g => extractDate g = some d) := by
            rw [List.filter_cons]
            simp [hed]
          rw [hfil]
          exact ih acc hnd d fs h
      | some dn =>
          have hstep : groupStep acc n = dictAppend dn n acc := by
            unfold groupStep; rw [hed]
          rw [hstep] at h
          rcases ih (dictAppend dn n acc) (dictAppend_nodup dn n acc hnd) d fs h
            with ⟨fs0, hfs0mem, hfseq⟩ | ⟨hnotkeys, hfseq⟩
          · rcases dictAppend_mem_cases dn n acc hnd d fs0 hfs0mem
              with ⟨hdd, hsub⟩ | ⟨hdd, hmem⟩
            · subst hdd
              have hfil : (n :: ns).filter (fun g => extractDate g = some d) =
                  n :: ns.filter (fun g => extractDate g = some d) := by
                rw [List.filter_cons]
                simp [hed]
              rcases hsub with ⟨fs1, hfs1, hfs1eq⟩ | ⟨hnot, hfs1eq⟩
              · refine Or.inl ⟨fs1, hfs1, ?_⟩
                rw [hfseq, hfs1eq, hfil, List.append_assoc]
                rfl
              · refine Or.inr ⟨hnot, ?_⟩
                rw [hfseq, hfs1eq, hfil]
                rfl
            · have hfil : (n :: ns).filter (fun g => extractDate g = some d) =
                  ns.filter (fun g => extractDate g = some d) := by
                rw [List.filter_cons]
                simp only [hed, Option.some.injEq, decide_eq_true_eq]
                rw [if_neg (fun hc => hdd hc.symm)]
              exact Or.inl ⟨fs0, hmem, by rw [hfseq, hfil]⟩
          · have hdn : d ≠ dn := by
              intro hc
              apply hnotkeys
              subst hc
              obtain ⟨fs1, hfs1⟩ := dictAppend_self_mem d n acc
              exact List.mem_map.mpr ⟨(d, fs1), hfs1, rfl⟩
            have hnacc : d ∉ acc.map Prod.fst := by
              intro hc
              apply hnotkeys
              rw [dictAppend_keys]
              by_cases hmm : dn ∈ acc.map Prod.fst
              · rw [if_pos hmm]; exact hc
              · rw [if_neg hmm]; exact List.mem_append_left _ hc
            have hfil : (n :: ns).filter (fun g => extractDate g = some d) =
                ns.filter (fun g => extractDate g = some d) := by
              rw [List.filter_cons]
              simp only [hed, Option.some.injEq, decide_eq_true_eq]
              rw [if_neg (fun hc => hdn hc.symm)]
            exact Or.inr ⟨hnacc, by rw [hfseq, hfil]⟩

/-- C9: a file of the scan is a candidate of the gap-filling phase exactly
when the date extracted from its name is shared with more than one file of
the scan (counted by the extracted date) and its own name lacks an
episode-number pattern. -/
theorem c9_candidate_iff (names : List String) (f : String) (hf : f ∈ names) :
    isCandidate names f = true ↔
      ∃ d, extractDate f = some d ∧
        1 < (names.filter (fun g => extractDate g = some d)).length ∧
        hasEpNum9 f.data = false := by
  constructor
  · intro h
    unfold isCandidate at h
    obtain ⟨p, hp, hcont⟩ := List.any_eq_true.mp h
    have hfp : f ∈ p.2 := List.mem_of_elem_eq_true hcont
    unfold findFilesWithoutEpisodeNumbers at hp
    obtain ⟨q, hq, hcond⟩ := List.mem_filterMap.mp hp
    by_cases h1 : q.2.length = 1
    · rw [if_pos h1] at hcond
      exact absurd hcond (by simp)
    · rw [if_neg h1] at hcond
      by_cases h2 : (q.2.filter (fun x => !hasEpNum9 x.data)).isEmpty
      · rw [if_pos h2] at hcond
        exact absurd hcond (by simp)
      · rw [if_neg h2] at hcond
        simp only [Option.some.injEq] at hcond
        rw [← hcond] at hfp
        have hfq2 : f ∈ q.2.filter (fun x => !hasEpNum9 x.data) := hfp
        have hfq := List.mem_filter.mp hfq2
        have hnoep : hasEpNum9 f.data = false := by
          have := hfq.2
          simp only [Bool.not_eq_true'] at this
          exact this
        have hgrp := groupFold_mem names [] (by simp) q.1 q.2
          (by rw [← Prod.mk.eta (p := q)] at hq; exact hq)
        rcases hgrp with ⟨fs0, hfs0, _⟩ | ⟨_, hq2eq⟩
        · exact absurd hfs0 (List.not_mem_nil _)
        · refine ⟨q.1, ?_, ?_, hnoep⟩
          · have := List.mem_filter.mp (hq2eq ▸ hfq.1)
            simpa using this.2
          · rw [← hq2eq]
            have hlen1 : 1 ≤ q.2.length := by
              have : q.2 ≠ [] := fun hc => by
                rw [hc] at hfq
                exact absurd hfq.1 (List.not_mem_nil f)
              cases hq2 : q.2 with
              | nil => exact absurd hq2 this
              | cons a l => simp
            omega
  · intro ⟨d, hed, hlen, hnoep⟩
    obtain ⟨fs, hfs⟩ := groupFold_cover names [] f hf d hed
    have hgrp := groupFold_mem names [] (by simp) d fs hfs
    rcases hgrp with ⟨fs0, hfs0, _⟩ | ⟨_, hfseq⟩
    · exact absurd hfs0 (List.not_mem_nil _)
    · have hffs : f ∈ fs := by
        rw [hfseq]
        exact List.mem_filter.mpr ⟨hf, by simp [hed]⟩
      have hfmiss : f ∈ fs.filter (fun x => !hasEpNum9 x.data) :=
        List.mem_filter.mpr ⟨hffs, by simp [hnoep]⟩
      unfold isCandidate
      rw [List.any_eq_true]
      refine ⟨(d, fs.filter (fun x => !hasEpNum9 x.data)), ?_, ?_⟩
      · unfold findFilesWithoutEpisodeNumbers
        rw [List.mem_filterMap]
        refine ⟨(d, fs), hfs, ?_⟩
        rw [if_neg (show ¬ ((d, fs) : String × List String).2.length = 1 by
          show ¬ fs.length = 1
          rw [hfseq]
          omega)]
        rw [if_neg ?_]
        · intro hc
          rw [show ((d, fs) : String × List String).2 = fs from rfl] at hc
          rw [List.isEmpty_iff] at hc
          rw [hc] at hfmiss
          exact absurd hfmiss (List.not_mem_nil f)
      · show (fs.filter (fun x => !hasEpNum9 x.data)).contains f = true
        exact List.elem_eq_true_of_mem hfmiss

/-- Witness for `c9_candidate_iff`: among the three files dated 2023-01-05,
2023-01-05 and 2023-06-01, the pair sharing a date are candidates and the
lone file is not. -/
theorem c9_candidate_iff_witness :
    isCandidate c9Names "A - 2023-01-05 - X.mp3" = true
  ∧ isCandidate c9Names "A - 2023-06-01 - Z.mp3" = false :=
  ⟨(c9_candidate_iff c9Names "A - 2023-01-05 - X.mp3" (by decide)).mpr
    ⟨"2023-01-05", by decide, by decide, by decide⟩,
   by decide⟩

theorem char_isDigit_toNat {c : Char} (h : c.isDigit = true) :
    48 ≤ c.toNat ∧ c.toNat ≤ 57 := by
  unfold Char.isDigit at h
  rw [Bool.and_eq_true] at h
  obtain ⟨h1, h2⟩ := h
  rw [decide_eq_true_eq, ge_iff_le, UInt32.le_def, BitVec.le_def] at h1
  rw [decide_eq_true_eq, UInt32.le_def, BitVec.le_def] at h2
  have e48 : (48 : UInt32).toBitVec.toNat = 48 := by decide
  have e57 : (57 : UInt32).toBitVec.toNat = 57 := by decide
  have ec : c.val.toBitVec.toNat = c.toNat := rfl
  rw [e48, ec] at h1
  rw [e57, ec] at h2
  exact ⟨h1, h2⟩

theorem toLower_digit {c : Char} (h : c.isDigit = true) : c.toLower = c := by
  unfold Char.toLower
  rw [if_neg]
  intro hc
  have hd := char_isDigit_toNat h
  omega

theorem digit_not_space {c : Char} (h : c.isDigit = true) : pyIsSpace c = false := by
  have hd := char_isDigit_toNat h
  unfold pyIsSpace
  have hne : ∀ x : Char, x.toNat < 48 → decide (c = x) = false := by
    intro x hx
    rw [decide_eq_false_iff_not]
    intro he
    rw [he] at hd
    omega
  rw [hne ' ' (by decide), hne '\t' (by decide), hne '\n' (by decide),
    hne '\x0d' (by decide), hne '\x0b' (by decide), hne '\x0c' (by decide)]
  rfl

theorem digitChar_toNat {d : Nat} (h : d < 10) :
    (Char.ofNat (48 + d)).toNat = 48 + d := by
  interval_cases d <;> decide

theorem digitChar_isDigit {d : Nat} (h : d < 10) :
    (Char.ofNat (48 + d)).isDigit = true := by
  interval_cases d <;> decide

theorem digitVal_digitChar {d : Nat} (h : d < 10) :
    digitVal (Char.ofNat (48 + d)) = d := by
  unfold digitVal
  rw [digitChar_toNat h]
  omega

theorem digitsToNat_append (l : List Char) (c : Char) :
    digitsToNat (l ++ [c]) = 10 * digitsToNat l + digitVal c := by
  unfold digitsToNat
  rw [List.foldl_append]
  simp [Nat.mul_comm]

theorem natCharsF_congr : ∀ f1 f2 n : Nat, n ≤ f1 → n ≤ f2 →
    natCharsF f1 n = natCharsF f2 n := by
  intro f1
  induction f1 with
  | zero =>
      intro f2 n h1 h2
      have hn : n = 0 := Nat.le_zero.mp h1
      subst hn
      cases f2 with
      | zero => rfl
      | succ f2 => simp [natCharsF]
  | succ f1 ih =>
      intro f2 n h1 h2
      cases f2 with
      | zero =>
          have hn : n = 0 := Nat.le_zero.mp h2
          subst hn
          simp [natCharsF]
      | succ f2 =>
          unfold natCharsF
          by_cases hn : n < 10
          · rw [if_pos hn, if_pos hn]
          · rw [if_neg hn, if_neg hn]
            have hdiv : n / 10 ≤ f1 := by
              have := Nat.div_lt_self (by omega : 0 < n) (by omega : 1 < 10)
              omega
            have hdiv2 : n / 10 ≤ f2 := by
              have := Nat.div_lt_self (by omega : 0 < n) (by omega : 1 < 10)
              omega
            rw [ih f2 (n / 10) hdiv hdiv2]

theorem natChars_unfold (n : Nat) :
    natChars n = if n < 10 then [Char.ofNat (48 + n)]
      else natChars (n / 10) ++ [Char.ofNat (48 + n % 10)] := by
  unfold natChars
  by_cases hn : n < 10
  · rw [if_pos hn]
    cases n with
    | zero => rfl
    | succ m => unfold natCharsF; rw [if_pos hn]
  · rw [if_neg hn]
    cases n with
    | zero => omega
    | succ m =>
        have hle : (m + 1) / 10 ≤ m := by
          have := Nat.div_lt_self (by omega : 0 < m + 1) (by omega : 1 < 10)
          omega
        show natCharsF (m + 1) (m + 1) =
          natChars ((m + 1) / 10) ++ [Char.ofNat (48 + (m + 1) % 10)]
        rw [show natCharsF (m + 1) (m + 1) =
            natCharsF m ((m + 1) / 10) ++ [Char.ofNat (48 + (m + 1) % 10)] from by
          show (if m + 1 < 10 then [Char.ofNat (48 + (m + 1))]
            else natCharsF m ((m + 1) / 10) ++ [Char.ofNat (48 + (m + 1) % 10)]) = _
          rw [if_neg hn]]
        rw [natCharsF_congr m ((m + 1) / 10) ((m + 1) / 10) hle (le_refl _)]
        rfl

theorem digitsToNat_natChars (n : Nat) : digitsToNat (natChars n) = n := by
  induction n using Nat.strong_induction_on with
  | _ n ih =>
      rw [natChars_unfold]
      by_cases hn : n < 10
      · rw [if_pos hn]
        show digitsToNat [Char.ofNat (48 + n)] = n
        unfold digitsToNat
        simp [digitVal_digitChar hn]
      · rw [if_neg hn]
        rw [digitsToNat_append]
        rw [ih (n / 10) (Nat.div_lt_self (by omega) (by omega))]
        rw [digitVal_digitChar (Nat.mod_lt n (by omega))]
        omega

theorem natChars_all_digits (n : Nat) : ∀ c ∈ natChars n, c.isDigit = true := by
  induction n using Nat.strong_induction_on with
  | _ n ih =>
      rw [natChars_unfold]
      by_cases hn : n < 10
      · rw [if_pos hn]
        intro c hc
        rw [List.mem_singleton.mp hc]
        exact digitChar_isDigit hn
      · rw [if_neg hn]
        intro c hc
        rcases List.mem_append.mp hc with hm | hm
        · exact ih (n / 10) (Nat.div_lt_self (by omega) (by omega)) c hm
        · rw [List.mem_singleton.mp hm]
          exact digitChar_isDigit (Nat.mod_lt n (by omega))

theorem natChars_ne_nil (n : Nat) : natChars n ≠ [] := by
  rw [natChars_unfold]
  by_cases hn : n < 10
  · rw [if_pos hn]; simp
  · rw [if_neg hn]; simp

theorem digitsToNat_zeros_append (k : Nat) (l : List Char) :
    digitsToNat (List.replicate k '0' ++ l) = digitsToNat l := by
  induction k with
  | zero => rfl
  | succ k ih =>
      rw [List.replicate_succ, List.cons_append]
      show digitsToNat (List.replicate k '0' ++ l) = digitsToNat l
      exact ih

theorem digitsToNat_zfillChars (D n : Nat) :
    digitsToNat (zfillChars D n) = n := by
  unfold zfillChars
  rw [digitsToNat_zeros_append, digitsToNat_natChars]

theorem zfillChars_all_digits (D n : Nat) :
    ∀ c ∈ zfillChars D n, c.isDigit = true := by
  intro c hc
  unfold zfillChars at hc
  rcases List.mem_append.mp hc with hm | hm
  · rw [List.eq_of_mem_replicate hm]; decide
  · exact natChars_all_digits n c hm

theorem zfillChars_ne_nil (D n : Nat) : zfillChars D n ≠ [] := by
  unfold zfillChars
  intro h
  rw [List.append_eq_nil] at h
  exact natChars_ne_nil n h.2

theorem zfillChars_idem (D n : Nat) :
    zfillChars D (digitsToNat (zfillChars D n)) = zfillChars D n := by
  rw [digitsToNat_zfillChars]

theorem takeWhile_append_not {p : Char → Bool} (a : List Char) {d : Char}
    (r : List Char) (hd : p d = false) :
    (a ++ d :: r).takeWhile p = a.takeWhile p := by
  induction a with
  | nil => simp [List.takeWhile, hd]
  | cons x a ih =>
      rw [List.cons_append, List.takeWhile_cons, List.takeWhile_cons]
      cases hx : p x
      · rfl
      · rw [ih]

theorem dropWhile_append_not {p : Char → Bool} (a : List Char) {d : Char}
    (r : List Char) (hd : p d = false) :
    (a ++ d :: r).dropWhile p = a.dropWhile p ++ d :: r := by
  induction a with
  | nil => simp [List.dropWhile, hd]
  | cons x a ih =>
      rw [List.cons_append, List.dropWhile_cons, List.dropWhile_cons]
      cases hx : p x
      · simp
      · simpa using ih

theorem takeWhile_all {p : Char → Bool} {a : List Char}
    (h : ∀ c ∈ a, p c = true) : a.takeWhile p = a := by
  induction a with
  | nil => rfl
  | cons x a ih =>
      rw [List.takeWhile_cons, h x (List.mem_cons_self x a)]
      rw [ih fun c hc => h c (List.mem_cons_of_mem x hc)]
      simp

theorem dropWhile_all {p : Char → Bool} {a : List Char}
    (h : ∀ c ∈ a, p c = true) : a.dropWhile p = [] := by
  induction a with
  | nil => rfl
  | cons x a ih =>
      rw [List.dropWhile_cons, h x (List.mem_cons_self x a)]
      exact ih fun c hc => h c (List.mem_cons_of_mem x hc)

theorem mem_takeWhile_pred {p : Char → Bool} : ∀ l : List Char, ∀ c,
    c ∈ l.takeWhile p → p c = true := by
  intro l
  induction l with
  | nil => intro c hc; exact absurd hc (List.not_mem_nil c)
  | cons x l ih =>
      intro c hc
      rw [List.takeWhile_cons] at hc
      cases hx : p x
      · rw [hx] at hc; exact absurd hc (List.not_mem_nil c)
      · rw [hx] at hc
        rcases List.mem_cons.mp hc with he | hm
        · rw [he]; exact hx
        · exact ih c hm

theorem dropWhile_head_not {p : Char → Bool} : ∀ l : List Char, ∀ y t,
    l.dropWhile p = y :: t → p y = false := by
  intro l
  induction l with
  | nil => intro y t h; exact absurd h (by simp [List.dropWhile])
  | cons x l ih =>
      intro y t h
      rw [List.dropWhile_cons] at h
      cases hx : p x
      · rw [hx] at h
        have he : x = y := (List.cons.injEq _ _ _ _ ▸ h).1
        rw [← he]
        exact hx
      · rw [hx] at h
        exact ih y t h

theorem strip_decomp : ∀ (cand cs pc r : List Char),
    stripCandCI cand cs = some (pc, r) →
    cs = pc ++ r ∧ List.Forall₂ (fun p c => p.toLower = c.toLower) cand pc := by
  intro cand
  induction cand with
  | nil =>
      intro cs pc r h
      unfold stripCandCI at h
      simp only [Option.some.injEq, Prod.mk.injEq] at h
      rw [← h.1, ← h.2]
      exact ⟨rfl, List.Forall₂.nil⟩
  | cons p ps ih =>
      intro cs pc r h
      match cs with
      | [] => exact absurd h (by simp [stripCandCI])
      | c :: cs' =>
          unfold stripCandCI at h
          by_cases hp : p.toLower = c.toLower
          · rw [if_pos hp] at h
            match hs : stripCandCI ps cs' with
            | none => rw [hs] at h; exact absurd h (by simp)
            | some (pc1, r1) =>
                rw [hs] at h
                simp only [Option.map_some', Option.some.injEq, Prod.mk.injEq] at h
                obtain ⟨hpc, hr⟩ := h
                obtain ⟨hcs, hf⟩ := ih cs' pc1 r1 hs
                rw [← hpc, ← hr]
                constructor
                · rw [List.cons_append, ← hcs]
                · exact List.Forall₂.cons hp hf
          · rw [if_neg hp] at h
            exact absurd h (by simp)

theorem strip_self : ∀ (cand pc : List Char),
    List.Forall₂ (fun p c => p.toLower = c.toLower) cand pc →
    ∀ X, stripCandCI cand (pc ++ X) = some (pc, X) := by
  intro cand pc h
  induction h with
  | nil => intro X; rfl
  | cons hp _ ih =>
      intro X
      rw [List.cons_append]
      unfold stripCandCI
      rw [if_pos hp, ih X]
      rfl

theorem strip_agree : ∀ (cand : List Char),
    (∀ p ∈ cand, (p.toLower).isDigit = false) →
    ∀ (a r r' : List Char) (d d' : Char), d.isDigit = true → d'.isDigit = true →
    (stripCandCI cand (a ++ d :: r) = none →
      stripCandCI cand (a ++ d' :: r') = none)
    ∧ (∀ pc rest, stripCandCI cand (a ++ d :: r) = some (pc, rest) →
      ∃ asuf, a = pc ++ asuf ∧ rest = asuf ++ d :: r ∧
        stripCandCI cand (a ++ d' :: r') = some (pc, asuf ++ d' :: r')) := by
  intro cand
  induction cand with
  | nil =>
      intro _ a r r' d d' _ _
      constructor
      · intro h; exact absurd h (by simp [stripCandCI])
      · intro pc rest h
        unfold stripCandCI at h
        simp only [Option.some.injEq, Prod.mk.injEq] at h
        refine ⟨a, by rw [← h.1]; rfl, by rw [← h.2], ?_⟩
        rw [← h.1]
        rfl
  | cons p ps ih =>
      intro hcand a r r' d d' hd hd'
      have hpd : p.toLower ≠ d.toLower := by
        rw [toLower_digit hd]
        intro hc
        rw [← hc] at hd
        rw [hcand p (List.mem_cons_self p ps)] at hd
        exact Bool.noConfusion hd
      have hpd' : p.toLower ≠ d'.toLower := by
        rw [toLower_digit hd']
        intro hc
        rw [← hc] at hd'
        rw [hcand p (List.mem_cons_self p ps)] at hd'
        exact Bool.noConfusion hd'
      match a with
      | [] =>
          constructor
          · intro _
            show stripCandCI (p :: ps) (d' :: r') = none
            unfold stripCandCI
            rw [if_neg hpd']
          · intro pc rest h
            exfalso
            replace h : stripCandCI (p :: ps) (d :: r) = some (pc, rest) := h
            unfold stripCandCI at h
            rw [if_neg hpd] at h
            exact Option.noConfusion h
      | x :: a2 =>
          have ihx := ih (fun q hq => hcand q (List.mem_cons_of_mem p hq))
            a2 r r' d d' hd hd'
          constructor
          · intro h
            replace h : (if p.toLower = x.toLower then
                (stripCandCI ps (a2 ++ d :: r)).map (fun q => (x :: q.1, q.2))
              else none) = none := h
            show (if p.toLower = x.toLower then
                (stripCandCI ps (a2 ++ d' :: r')).map (fun q => (x :: q.1, q.2))
              else none) = none
            by_cases hx : p.toLower = x.toLower
            · rw [if_pos hx]
              rw [if_pos hx] at h
              match hs : stripCandCI ps (a2 ++ d :: r) with
              | some q => rw [hs] at h; exact absurd h (by simp)
              | none =>
                  rw [ihx.1 hs]
                  rfl
            · rw [if_neg hx]
          · intro pc rest h
            replace h : (if p.toLower = x.toLower then
                (stripCandCI ps (a2 ++ d :: r)).map (fun q => (x :: q.1, q.2))
              else none) = some (pc, rest) := h
            by_cases hx : p.toLower = x.toLower
            · rw [if_pos hx] at h
              match hs : stripCandCI ps (a2 ++ d :: r) with
              | none => rw [hs] at h; exact absurd h (by simp)
              | some (pc1, rest1) =>
                  rw [hs] at h
                  simp only [Option.map_some', Option.some.injEq,
                    Prod.mk.injEq] at h
                  obtain ⟨hpc, hrest⟩ := h
                  obtain ⟨asuf, ha2, hrest1, hs'⟩ := ihx.2 pc1 rest1 hs
                  refine ⟨asuf, ?_, ?_, ?_⟩
                  · rw [← hpc, List.cons_append, ha2]
                  · rw [← hrest, hrest1]
                  · show (if p.toLower = x.toLower then
                        (stripCandCI ps (a2 ++ d' :: r')).map
                          (fun q => (x :: q.1, q.2))
                      else none) = some (pc, asuf ++ d' :: r')
                    rw [if_pos hx, hs']
                    rw [← hpc]
                    rfl
            · rw [if_neg hx] at h
              exact absurd h (by simp)

theorem tryCand_decomp (cand cs pc sp dg r : List Char)
    (h : tryCand cand cs = some (pc, sp, dg, r)) :
    cs = pc ++ (sp ++ (dg ++ r))
    ∧ List.Forall₂ (fun p c => p.toLower = c.toLower) cand pc
    ∧ (∀ c ∈ sp, pyIsSpace c = true)
    ∧ (∀ c ∈ dg, c.isDigit = true)
    ∧ dg ≠ []
    ∧ (r = [] ∨ ∃ y t, r = y :: t ∧ y.isDigit = false) := by
  unfold tryCand at h
  match hs : stripCandCI cand cs with
  | none => rw [hs] at h; exact absurd h (by simp)
  | some (pc0, r1) =>
      rw [hs] at h
      simp only at h
      by_cases hdg : (List.takeWhile Char.isDigit (List.dropWhile pyIsSpace r1)).isEmpty
      · rw [if_pos hdg] at h
        exact absurd h (by simp)
      · rw [if_neg hdg] at h
        simp only [Option.some.injEq, Prod.mk.injEq] at h
        obtain ⟨hpc, hsp, hdgv, hr⟩ := h
        obtain ⟨hcs, hpair⟩ := strip_decomp cand cs pc0 r1 hs
        subst hpc hsp hdgv hr
        refine ⟨?_, hpair, ?_, ?_, ?_, ?_⟩
        · have e1 : List.takeWhile Char.isDigit (List.dropWhile pyIsSpace r1) ++
              List.dropWhile Char.isDigit (List.dropWhile pyIsSpace r1) =
              List.dropWhile pyIsSpace r1 :=
            List.takeWhile_append_dropWhile Char.isDigit (List.dropWhile pyIsSpace r1)
          have e2 : List.takeWhile pyIsSpace r1 ++ List.dropWhile pyIsSpace r1 = r1 :=
            List.takeWhile_append_dropWhile pyIsSpace r1
          rw [hcs, e1, e2]
        · intro c hc; exact mem_takeWhile_pred _ c hc
        · intro c hc; exact mem_takeWhile_pred _ c hc
        · intro hc
          rw [hc] at hdg
          exact hdg rfl
        · match hdrop : List.dropWhile Char.isDigit (List.dropWhile pyIsSpace r1) with
          | [] => exact Or.inl rfl
          | y :: t => exact Or.inr ⟨y, t, rfl, dropWhile_head_not _ y t hdrop⟩

theorem tryCand_none_pres (cand : List Char)
    (hcand : ∀ p ∈ cand, (p.toLower).isDigit = false)
    (a r r' : List Char) (d d' : Char) (hd : d.isDigit = true)
    (hd' : d'.isDigit = true)
    (h : tryCand cand (a ++ d :: r) = none) :
    tryCand cand (a ++ d' :: r') = none := by
  unfold tryCand at h ⊢
  match hs : stripCandCI cand (a ++ d :: r) with
  | none =>
      rw [(strip_agree cand hcand a r r' d d' hd hd').1 hs]
  | some (pc, rest) =>
      rw [hs] at h
      obtain ⟨asuf, ha, hrest, hs'⟩ :=
        (strip_agree cand hcand a r r' d d' hd hd').2 pc rest hs
      rw [hs']
      simp only at h ⊢
      have hdns : pyIsSpace d = false := digit_not_space hd
      have hdns' : pyIsSpace d' = false := digit_not_space hd'
      rw [hrest] at h
      rw [dropWhile_append_not asuf r hdns] at h
      rw [dropWhile_append_not asuf r' hdns']
      match hda : List.dropWhile pyIsSpace asuf with
      | [] =>
          rw [hda, List.nil_append, List.takeWhile_cons, hd] at h
          simp at h
      | y :: t =>
          rw [hda, List.cons_append, List.takeWhile_cons] at h
          rw [List.cons_append, List.takeWhile_cons]
          match hyd : y.isDigit with
          | true =>
              simp at h
              exact Bool.noConfusion (hyd.symm.trans h)
          | false => simp

theorem tryCand_some_rebuild (cand pc sp dg' r' : List Char)
    (hpc : List.Forall₂ (fun p c => p.toLower = c.toLower) cand pc)
    (hsp : ∀ c ∈ sp, pyIsSpace c = true)
    (hdg : ∀ c ∈ dg', c.isDigit = true) (hne : dg' ≠ [])
    (hr : r' = [] ∨ ∃ y t, r' = y :: t ∧ y.isDigit = false) :
    tryCand cand (pc ++ (sp ++ (dg' ++ r'))) = some (pc, sp, dg', r') := by
  unfold tryCand
  rw [strip_self cand pc hpc (sp ++ (dg' ++ r'))]
  match dg', hne with
  | dh :: dt, _ =>
      have hdh : dh.isDigit = true := hdg dh (List.mem_cons_self dh dt)
      have hdhs : pyIsSpace dh = false := digit_not_space hdh
      simp only
      rw [List.cons_append]
      rw [takeWhile_append_not sp (dt ++ r') hdhs]
      rw [dropWhile_append_not sp (dt ++ r') hdhs]
      rw [takeWhile_all hsp, dropWhile_all hsp, List.nil_append]
      have htd : List.takeWhile Char.isDigit (dh :: (dt ++ r')) = dh :: dt := by
        rw [List.takeWhile_cons, hdh]
        rcases hr with he | ⟨y, t, he, hy⟩
        · rw [he, List.append_nil]
          rw [takeWhile_all fun c hc => hdg c (List.mem_cons_of_mem dh hc)]
          simp
        · rw [he, takeWhile_append_not dt t hy]
          rw [takeWhile_all fun c hc => hdg c (List.mem_cons_of_mem dh hc)]
          simp
      have hdd : List.dropWhile Char.isDigit (dh :: (dt ++ r')) = r' := by
        rw [List.dropWhile_cons, hdh]
        rcases hr with he | ⟨y, t, he, hy⟩
        · rw [he, List.append_nil]
          rw [if_pos rfl]
          exact dropWhile_all fun c hc => hdg c (List.mem_cons_of_mem dh hc)
        · rw [if_pos rfl, he, dropWhile_append_not dt t hy]
          rw [dropWhile_all fun c hc => hdg c (List.mem_cons_of_mem dh hc)]
          rfl
      rw [htd, hdd]
      rw [if_neg (by simp)]

theorem tryCands_none_iff (cands : List (List Char)) (cs : List Char) :
    tryCands cands cs = none ↔ ∀ c ∈ cands, tryCand c cs = none := by
  induction cands with
  | nil => simp [tryCands]
  | cons cand rest ih =>
      unfold tryCands
      match hc : tryCand cand cs with
      | some q =>
          simp only
          constructor
          · intro h; exact Option.noConfusion h
          · intro h
            rw [h cand (List.mem_cons_self cand rest)] at hc
            exact Option.noConfusion hc
      | none =>
          simp only
          rw [ih]
          constructor
          · intro h c hm
            rcases List.mem_cons.mp hm with he | hmm
            · rw [he]; exact hc
            · exact h c hmm
          · intro h c hm
            exact h c (List.mem_cons_of_mem cand hm)

theorem tryCands_some_decomp (cands : List (List Char)) (cs : List Char)
    (res : List Char × List Char × List Char × List Char)
    (h : tryCands cands cs = some res) :
    ∃ pre cand post, cands = pre ++ cand :: post ∧
      (∀ c ∈ pre, tryCand c cs = none) ∧ tryCand cand cs = some res := by
  induction cands with
  | nil => exact absurd h (by simp [tryCands])
  | cons c0 rest ih =>
      unfold tryCands at h
      match hc : tryCand c0 cs with
      | some q =>
          rw [hc] at h
          simp only [Option.some.injEq] at h
          exact ⟨[], c0, rest, rfl, by simp, by rw [hc, h]⟩
      | none =>
          rw [hc] at h
          obtain ⟨pre, cand, post, hcands, hpre, hcand⟩ := ih h
          refine ⟨c0 :: pre, cand, post, by rw [hcands]; rfl, ?_, hcand⟩
          intro c hm
          rcases List.mem_cons.mp hm with he | hmm
          · rw [he]; exact hc
          · exact hpre c hmm

theorem tryCands_rebuild (pre : List (List Char)) (cand : List Char)
    (post : List (List Char)) (cs' : List Char)
    (res' : List Char × List Char × List Char × List Char)
    (hpre : ∀ c ∈ pre, tryCand c cs' = none)
    (hcand : tryCand cand cs' = some res') :
    tryCands (pre ++ cand :: post) cs' = some res' := by
  induction pre with
  | nil =>
      rw [List.nil_append]
      unfold tryCands
      rw [hcand]
  | cons c0 rest ih =>
      rw [List.cons_append]
      unfold tryCands
      rw [hpre c0 (List.mem_cons_self c0 rest)]
      exact ih fun c hm => hpre c (List.mem_cons_of_mem c0 hm)

theorem padCands_lower_not_digit :
    ∀ cand ∈ padCands, ∀ p ∈ cand, (p.toLower).isDigit = false := by
  decide

theorem matchAtPad_none_agree {cs cs' : List Char}
    (h : matchAtPad cs = none) (ha : AgreeToDigit cs cs') :
    matchAtPad cs' = none := by
  rcases ha with he | ⟨a, r, r', d, d', hcs, hcs', hd, hd'⟩
  · rw [← he]; exact h
  · subst hcs hcs'
    unfold matchAtPad at h ⊢
    rw [tryCands_none_iff] at h ⊢
    intro c hm
    exact tryCand_none_pres c (padCands_lower_not_digit c hm) a r r' d d' hd hd'
      (h c hm)

theorem matchAtPad_some_facts {cs pc sp dg r : List Char}
    (h : matchAtPad cs = some (pc, sp, dg, r)) :
    cs = pc ++ (sp ++ (dg ++ r))
    ∧ (∀ c ∈ sp, pyIsSpace c = true)
    ∧ (∀ c ∈ dg, c.isDigit = true)
    ∧ dg ≠ []
    ∧ (r = [] ∨ ∃ y t, r = y :: t ∧ y.isDigit = false)
    ∧ (∃ c0 pcr, pc = c0 :: pcr ∧ c0.isDigit = false) := by
  obtain ⟨pre, cand, post, hcands, hpre, hcand⟩ :=
    tryCands_some_decomp padCands cs _ h
  have hmem : cand ∈ padCands := by
    rw [hcands]
    exact List.mem_append_right _ (List.mem_cons_self _ _)
  obtain ⟨hcs, hpair, hsp, hdg, hne, hr⟩ := tryCand_decomp cand cs pc sp dg r hcand
  refine ⟨hcs, hsp, hdg, hne, hr, ?_⟩
  have hcne : cand ≠ [] := by
    intro hc
    rw [hc] at hmem
    revert hmem
    decide
  match cand, hcne, hpair with
  | q0 :: qs, _, List.Forall₂.cons hq hrest =>
      rename_i c0 pcr
      refine ⟨c0, pcr, rfl, ?_⟩
      match hc0 : c0.isDigit with
      | false => rfl
      | true =>
          exfalso
          have := padCands_lower_not_digit _ hmem q0 (List.mem_cons_self q0 qs)
          rw [hq, toLower_digit hc0] at this
          rw [hc0] at this
          exact Bool.noConfusion this

theorem matchAtPad_rest_lt {cs pc sp dg r : List Char}
    (h : matchAtPad cs = some (pc, sp, dg, r)) : r.length < cs.length := by
  obtain ⟨hcs, _, _, hne, _, _⟩ := matchAtPad_some_facts h
  rw [hcs]
  simp only [List.length_append]
  match dg, hne with
  | _ :: _, _ => simp only [List.length_cons]; omega

theorem matchAtPad_some_rebuild {cs pc sp dg r : List Char}
    (h : matchAtPad cs = some (pc, sp, dg, r)) (dg' r' : List Char)
    (hdg' : ∀ c ∈ dg', c.isDigit = true) (hne' : dg' ≠ [])
    (hr' : r' = [] ∨ ∃ y t, r' = y :: t ∧ y.isDigit = false) :
    matchAtPad (pc ++ (sp ++ (dg' ++ r'))) = some (pc, sp, dg', r') := by
  obtain ⟨pre, cand, post, hcands, hpre, hcand⟩ :=
    tryCands_some_decomp padCands cs _ h
  obtain ⟨hcs, hpair, hsp, hdg, hne, hr⟩ := tryCand_decomp cand cs pc sp dg r hcand
  unfold matchAtPad
  rw [hcands]
  refine tryCands_rebuild pre cand post _ _ ?_ ?_
  · intro c hm
    match dg, hne, hdg, hr with
    | dh :: dt, _, hdg, hr =>
        match dg', hne', hdg' with
        | dh' :: dt', _, hdg' =>
            have heq : pc ++ (sp ++ ((dh :: dt) ++ r)) =
                (pc ++ sp) ++ dh :: (dt ++ r) := by simp
            have heq' : pc ++ (sp ++ ((dh' :: dt') ++ r')) =
                (pc ++ sp) ++ dh' :: (dt' ++ r') := by simp
            have hcnone := hpre c hm
            rw [hcs, heq] at hcnone
            rw [heq']
            exact tryCand_none_pres c
              (padCands_lower_not_digit c (by rw [hcands]; exact List.mem_append_left _ hm))
              (pc ++ sp) (dt ++ r) (dt' ++ r') dh dh'
              (hdg dh (List.mem_cons_self dh dt))
              (hdg' dh' (List.mem_cons_self dh' dt')) hcnone
  · exact tryCand_some_rebuild cand pc sp dg' r' hpair hsp hdg' hne' hr'

theorem subDigitsF_congr (D : Nat) : ∀ f1 f2 cs, cs.length ≤ f1 →
    cs.length ≤ f2 → subDigitsF D f1 cs = subDigitsF D f2 cs := by
  intro f1
  induction f1 with
  | zero =>
      intro f2 cs h1 _
      have hcs : cs = [] := List.eq_nil_of_length_eq_zero (Nat.le_zero.mp h1)
      subst hcs
      cases f2 with
      | zero => rfl
      | succ f2 => rfl
  | succ f1 ih =>
      intro f2 cs h1 h2
      match cs with
      | [] =>
          cases f2 with
          | zero => rfl
          | succ f2 => rfl
      | c :: rest =>
          cases f2 with
          | zero => simp at h2
          | succ f2 =>
              show (match matchAtPad (c :: rest) with
                | some (pc, sp, dg, r) =>
                    pc ++ sp ++ zfillChars D (digitsToNat dg) ++ subDigitsF D f1 r
                | none => c :: subDigitsF D f1 rest) =
                (match matchAtPad (c :: rest) with
                | some (pc, sp, dg, r) =>
                    pc ++ sp ++ zfillChars D (digitsToNat dg) ++ subDigitsF D f2 r
                | none => c :: subDigitsF D f2 rest)
              match hm : matchAtPad (c :: rest) with
              | some (pc, sp, dg, r) =>
                  have hlt := matchAtPad_rest_lt hm
                  simp only [List.length_cons] at h1 h2 hlt
                  show pc ++ sp ++ zfillChars D (digitsToNat dg) ++ subDigitsF D f1 r =
                    pc ++ sp ++ zfillChars D (digitsToNat dg) ++ subDigitsF D f2 r
                  rw [ih f2 r (by omega) (by omega)]
              | none =>
                  simp only [List.length_cons] at h1 h2
                  show c :: subDigitsF D f1 rest = c :: subDigitsF D f2 rest
                  rw [ih f2 rest (by omega) (by omega)]

theorem subDigits_cons_some {c : Char} {cs pc sp dg r : List Char} (D : Nat)
    (h : matchAtPad (c :: cs) = some (pc, sp, dg, r)) :
    subDigits D (c :: cs) =
      pc ++ sp ++ zfillChars D (digitsToNat dg) ++ subDigits D r := by
  unfold subDigits
  have hlt := matchAtPad_rest_lt h
  simp only [List.length_cons] at hlt ⊢
  show (match matchAtPad (c :: cs) with
    | some (pc, sp, dg, r) =>
        pc ++ sp ++ zfillChars D (digitsToNat dg) ++ subDigitsF D cs.length r
    | none => c :: subDigitsF D cs.length cs) = _
  rw [h]
  show pc ++ sp ++ zfillChars D (digitsToNat dg) ++ subDigitsF D cs.length r = _
  rw [subDigitsF_congr D cs.length r.length r (by omega) (le_refl _)]

theorem subDigits_cons_none {c : Char} {cs : List Char} (D : Nat)
    (h : matchAtPad (c :: cs) = none) :
    subDigits D (c :: cs) = c :: subDigits D cs := by
  unfold subDigits
  simp only [List.length_cons]
  show (match matchAtPad (c :: cs) with
    | some (pc, sp, dg, r) =>
        pc ++ sp ++ zfillChars D (digitsToNat dg) ++ subDigitsF D cs.length r
    | none => c :: subDigitsF D cs.length cs) = _
  rw [h]

theorem subDigits_head (D : Nat) (c : Char) (t : List Char)
    (hc : c.isDigit = false) :
    ∃ y t', subDigits D (c :: t) = y :: t' ∧ y.isDigit = false := by
  match hm : matchAtPad (c :: t) with
  | none =>
      rw [subDigits_cons_none D hm]
      exact ⟨c, subDigits D t, rfl, hc⟩
  | some (pc, sp, dg, r) =>
      rw [subDigits_cons_some D hm]
      obtain ⟨_, _, _, _, _, c0, pcr, hpc, hc0⟩ := matchAtPad_some_facts hm
      subst hpc
      exact ⟨c0, pcr ++ sp ++ zfillChars D (digitsToNat dg) ++ subDigits D r,
        by simp, hc0⟩

theorem subDigits_agree (D : Nat) : ∀ (n : Nat) (cs : List Char),
    cs.length ≤ n → AgreeToDigit cs (subDigits D cs) := by
  intro n
  induction n with
  | zero =>
      intro cs h
      have hcs : cs = [] := List.eq_nil_of_length_eq_zero (Nat.le_zero.mp h)
      subst hcs
      exact Or.inl rfl
  | succ n ih =>
      intro cs h
      match cs with
      | [] => exact Or.inl rfl
      | c :: t =>
          match hm : matchAtPad (c :: t) with
          | some (pc, sp, dg, r) =>
              rw [subDigits_cons_some D hm]
              obtain ⟨hcs, hsp, hdg, hne, hr, _⟩ := matchAtPad_some_facts hm
              match dg, hne, hdg with
              | dh :: dt, _, hdg =>
                  match hz : zfillChars D (digitsToNat (dh :: dt)) with
                  | [] => exact absurd hz (zfillChars_ne_nil _ _)
                  | zh :: zt =>
                      refine Or.inr ⟨pc ++ sp, dt ++ r, zt ++ subDigits D r, dh,
                        zh, ?_, ?_, hdg dh (List.mem_cons_self dh dt), ?_⟩
                      · rw [hcs]; simp
                      · simp
                      · exact zfillChars_all_digits D _ zh
                          (by rw [hz]; exact List.mem_cons_self zh zt)
          | none =>
              rw [subDigits_cons_none D hm]
              have hlen : t.length ≤ n := by
                simp only [List.length_cons] at h
                omega
              rcases ih t hlen with he | ⟨a, r, r', d, d', h1, h2, hd, hd'⟩
              · exact Or.inl (by rw [← he])
              · exact Or.inr ⟨c :: a, r, r', d, d',
                  by rw [h1]; rfl, by rw [h2]; rfl, hd, hd'⟩

theorem AgreeToDigit_cons (c : Char) {cs cs' : List Char}
    (h : AgreeToDigit cs cs') : AgreeToDigit (c :: cs) (c :: cs') := by
  rcases h with he | ⟨a, r, r', d, d', h1, h2, hd, hd'⟩
  · exact Or.inl (by rw [he])
  · exact Or.inr ⟨c :: a, r, r', d, d', by rw [h1]; rfl, by rw [h2]; rfl, hd, hd'⟩

theorem subDigits_rest_shape (D : Nat) {r : List Char}
    (hr : r = [] ∨ ∃ y t, r = y :: t ∧ y.isDigit = false) :
    subDigits D r = [] ∨ ∃ y t, subDigits D r = y :: t ∧ y.isDigit = false := by
  rcases hr with he | ⟨y, t, he, hy⟩
  · subst he; exact Or.inl rfl
  · subst he
    obtain ⟨z, u, heq, hnd⟩ := subDigits_head D y t hy
    exact Or.inr ⟨z, u, heq, hnd⟩

theorem subDigits_idemAux (D : Nat) : ∀ (n : Nat) (cs : List Char),
    cs.length ≤ n → subDigits D (subDigits D cs) = subDigits D cs := by
  intro n
  induction n with
  | zero =>
      intro cs h
      have hcs : cs = [] := List.eq_nil_of_length_eq_zero (Nat.le_zero.mp h)
      subst hcs
      rfl
  | succ n ih =>
      intro cs h
      match cs with
      | [] => rfl
      | c :: rest =>
          match hm : matchAtPad (c :: rest) with
          | none =>
              rw [subDigits_cons_none D hm]
              have hm2 : matchAtPad (c :: subDigits D rest) = none :=
                matchAtPad_none_agree hm
                  (AgreeToDigit_cons c
                    (subDigits_agree D rest.length rest (le_refl _)))
              rw [subDigits_cons_none D hm2]
              simp only [List.length_cons] at h
              rw [ih rest (by omega)]
          | some (pc, sp, dg, r) =>
              rw [subDigits_cons_some D hm]
              obtain ⟨hcs, hsp, hdg, hne, hr, c0, pcr, hpc, hc0⟩ :=
                matchAtPad_some_facts hm
              subst hpc
              have hm2 := matchAtPad_some_rebuild hm
                (zfillChars D (digitsToNat dg)) (subDigits D r)
                (zfillChars_all_digits D _) (zfillChars_ne_nil D _)
                (subDigits_rest_shape D hr)
              have hm3 : matchAtPad (c0 :: (pcr ++ (sp ++
                    (zfillChars D (digitsToNat dg) ++ subDigits D r)))) =
                  some (c0 :: pcr, sp, zfillChars D (digitsToNat dg),
                    subDigits D r) := hm2
              simp only [List.cons_append, List.append_assoc]
              rw [subDigits_cons_some D hm3]
              rw [digitsToNat_zfillChars D (digitsToNat dg)]
              have hlt := matchAtPad_rest_lt hm
              simp only [List.length_cons] at h hlt
              rw [ih r (by omega)]
              simp only [List.cons_append, List.append_assoc]

theorem subDigits_idem (D : Nat) (cs : List Char) :
    subDigits D (subDigits D cs) = subDigits D cs :=
  subDigits_idemAux D cs.length cs (le_refl _)

theorem firstEpNum_subDigitsAux (D : Nat) : ∀ (n : Nat) (cs : List Char),
    cs.length ≤ n → firstEpNum (subDigits D cs) = firstEpNum cs := by
  intro n
  induction n with
  | zero =>
      intro cs h
      have hcs : cs = [] := List.eq_nil_of_length_eq_zero (Nat.le_zero.mp h)
      subst hcs
      rfl
  | succ n ih =>
      intro cs h
      match cs with
      | [] => rfl
      | c :: rest =>
          match hm : matchAtPad (c :: rest) with
          | none =>
              rw [subDigits_cons_none D hm]
              have hm2 : matchAtPad (c :: subDigits D rest) = none :=
                matchAtPad_none_agree hm
                  (AgreeToDigit_cons c
                    (subDigits_agree D rest.length rest (le_refl _)))
              simp only [firstEpNum, hm, hm2]
              simp only [List.length_cons] at h
              exact ih rest (by omega)
          | some (pc, sp, dg, r) =>
              rw [subDigits_cons_some D hm]
              obtain ⟨hcs, hsp, hdg, hne, hr, c0, pcr, hpc, hc0⟩ :=
                matchAtPad_some_facts hm
              subst hpc
              have hm2 := matchAtPad_some_rebuild hm
                (zfillChars D (digitsToNat dg)) (subDigits D r)
                (zfillChars_all_digits D _) (zfillChars_ne_nil D _)
                (subDigits_rest_shape D hr)
              have hm3 : matchAtPad (c0 :: (pcr ++ (sp ++
                    (zfillChars D (digitsToNat dg) ++ subDigits D r)))) =
                  some (c0 :: pcr, sp, zfillChars D (digitsToNat dg),
                    subDigits D r) := hm2
              simp only [List.cons_append, List.append_assoc]
              simp only [firstEpNum, hm3, hm]
              rw [digitsToNat_zfillChars D (digitsToNat dg)]

theorem firstEpNum_subDigits (D : Nat) (cs : List Char) :
    firstEpNum (subDigits D cs) = firstEpNum cs :=
  firstEpNum_subDigitsAux D cs.length cs (le_refl _)

theorem pad_nums_pres (D : Nat) (names : List String) :
    (names.map (fun n => if (firstEpNum n.data).isSome then
        (⟨subDigits D n.data⟩ : String) else n)).filterMap
      (fun n => firstEpNum n.data) =
    names.filterMap (fun n => firstEpNum n.data) := by
  induction names with
  | nil => rfl
  | cons n ns ih =>
      simp only [List.map_cons, List.filterMap_cons]
      by_cases hs : (firstEpNum n.data).isSome = true
      · rw [if_pos hs]
        have hd : (⟨subDigits D n.data⟩ : String).data = subDigits D n.data :=
          rfl
        rw [hd, firstEpNum_subDigits D n.data, ih]
      · rw [if_neg hs, ih]

theorem pad_fun_idem (D : Nat) :
    (fun n : String => if (firstEpNum n.data).isSome then
        (⟨subDigits D n.data⟩ : String) else n) ∘
      (fun n : String => if (firstEpNum n.data).isSome then
        (⟨subDigits D n.data⟩ : String) else n) =
    (fun n : String => if (firstEpNum n.data).isSome then
        (⟨subDigits D n.data⟩ : String) else n) := by
  funext n
  show (if (firstEpNum (if (firstEpNum n.data).isSome then
          (⟨subDigits D n.data⟩ : String) else n).data).isSome then
      (⟨subDigits D (if (firstEpNum n.data).isSome then
          (⟨subDigits D n.data⟩ : String) else n).data⟩ : String)
    else (if (firstEpNum n.data).isSome then
        (⟨subDigits D n.data⟩ : String) else n)) =
    (if (firstEpNum n.data).isSome then
        (⟨subDigits D n.data⟩ : String) else n)
  by_cases hs : (firstEpNum n.data).isSome = true
  · rw [if_pos hs]
    have hd : (⟨subDigits D n.data⟩ : String).data = subDigits D n.data := rfl
    rw [hd, firstEpNum_subDigits D n.data, if_pos hs,
      subDigits_idem D n.data]
  · rw [if_neg hs, if_neg hs]

/-- C7: Phase A padding is idempotent: running `pad_episode_numbers` over the
file names it itself produced returns exactly the same names, so a second run
performs no further renames. -/
theorem c7_pad_idempotent (names : List String) :
    padEpisodeNumbers (padEpisodeNumbers names) = padEpisodeNumbers names := by
  by_cases he : (names.filterMap (fun n => firstEpNum n.data)).isEmpty = true
  · have h1 : padEpisodeNumbers names = names := by
      simp only [padEpisodeNumbers]
      rw [if_pos he]
    rw [h1]
    exact h1
  · have h1 : padEpisodeNumbers names = names.map (fun n =>
        if (firstEpNum n.data).isSome then
          (⟨subDigits (numDigits (maxNat (names.filterMap
            (fun m => firstEpNum m.data)))) n.data⟩ : String)
        else n) := by
      simp only [padEpisodeNumbers]
      rw [if_neg he]
    have hnums := pad_nums_pres
      (numDigits (maxNat (names.filterMap (fun m => firstEpNum m.data)))) names
    rw [h1]
    simp only [padEpisodeNumbers]
    rw [hnums]
    rw [if_neg he]
    rw [List.map_map]
    rw [pad_fun_idem
      (numDigits (maxNat (names.filterMap (fun m => firstEpNum m.data))))]
